import Mathlib

/-!
Verification of the analysis-pipeline orchestrator of `analysis.py`.

The development shallowly embeds the orchestrator: text is `List Char`,
the model reply is normalised by `cleanOutput` (the fence-stripping of
lines 214-223), parsed by `parse` (a model of the standard structured-data
parser, producing a `Json` tree whose objects follow insertion-ordered
dictionary semantics), backfilled by `backfill` (lines 228-238, including
the dynamic typing behaviour of the membership test and item assignment
on non-object values), and persisted by `runItem` / `runBatch`
(the per-item loop of lines 163-261 with its skip check and item-boundary
exception handler).  The corpus matcher of lines 151-182 is embedded by
`refNames` and `matchedTargets`.
-/

set_option maxHeartbeats 1000000

/-- Text, as a list of characters (the embedding of the source's strings). -/
abbrev Str := List Char

/-- Structured documents: the object/array/scalar tree equivalent to JSON.
Numbers are modelled as integers (the schema's numeric fields are integer
Unix timestamps and durations). -/
inductive Json where
  | null : Json
  | bool (b : Bool) : Json
  | num (n : Int) : Json
  | str (s : Str) : Json
  | arr (xs : List Json) : Json
  | obj (kvs : List (Str × Json)) : Json

/-- Whitespace characters removed by the source's `str.strip()`. -/
def isPySpace (c : Char) : Bool :=
  c = ' ' || c = '\t' || c = '\n' || c = '\r' || c = '\x0b' || c = '\x0c'

/-- Whitespace accepted between tokens by the structured-data parser. -/
def isJsonWs (c : Char) : Bool :=
  c = ' ' || c = '\t' || c = '\n' || c = '\r'

/-- Decimal digit test, by code point. -/
def isDigitCh (c : Char) : Bool :=
  48 ≤ c.toNat && c.toNat ≤ 57

/-- Value of a decimal digit character. -/
def digitVal (c : Char) : Nat := c.toNat - 48

/-- The decimal digit character for `n < 10`. -/
def digitChar (n : Nat) : Char := Char.ofNat (48 + n)

/-- Numeric value of a run of decimal digit characters. -/
def digitsToNat (ds : Str) : Nat := ds.foldl (fun a c => 10 * a + digitVal c) 0

/-- Decimal digits of `n`, most significant first (fuelled helper). -/
def natDigitsAux : Nat → Nat → Str
  | 0, _ => []
  | f + 1, n =>
    if n < 10 then [digitChar n]
    else natDigitsAux f (n / 10) ++ [digitChar (n % 10)]

/-- Decimal digits of `n`, most significant first. -/
def natDigits (n : Nat) : Str := natDigitsAux (n + 1) n

/-- Serialisation of an integer: optional minus sign, then decimal digits. -/
def serializeNum (n : Int) : Str :=
  if n < 0 then '-' :: natDigits n.natAbs else natDigits n.toNat

/-- Serialised text of the null value. -/
def litNull : Str := ['n', 'u', 'l', 'l']

/-- Serialised text of the true value. -/
def litTrue : Str := ['t', 'r', 'u', 'e']

/-- Serialised text of the false value. -/
def litFalse : Str := ['f', 'a', 'l', 's', 'e']

/-- Escape of one character inside a serialised string literal. -/
def escChar (c : Char) : Str :=
  if c = '"' then ['\\', '"']
  else if c = '\\' then ['\\', '\\']
  else [c]

/-- Escape of a whole string body. -/
def escStr : Str → Str
  | [] => []
  | c :: cs => escChar c ++ escStr cs

mutual

/-- Serialisation of a document (compact form, no inter-token whitespace). -/
def serialize : Json → Str
  | .null => litNull
  | .bool true => litTrue
  | .bool false => litFalse
  | .num n => serializeNum n
  | .str s => '"' :: (escStr s ++ ['"'])
  | .arr [] => ['[', ']']
  | .arr (x :: xs) => '[' :: (serialize x ++ serTail xs ++ [']'])
  | .obj [] => ['\x7b', '\x7d']
  | .obj ((k, v) :: kvs) => '\x7b' :: (serField k v ++ serFieldsTail kvs ++ ['\x7d'])
termination_by v => sizeOf v
decreasing_by all_goals (simp_wf; try omega)

/-- One serialised `key: value` pair. -/
def serField (k : Str) (v : Json) : Str :=
  '"' :: (escStr k ++ ['"', ':']) ++ serialize v
termination_by 1 + sizeOf v
decreasing_by all_goals (simp_wf; try omega)

/-- Serialised continuation of an array: `, x` for each further element. -/
def serTail : List Json → Str
  | [] => []
  | x :: xs => ',' :: (serialize x ++ serTail xs)
termination_by xs => sizeOf xs
decreasing_by all_goals (simp_wf; try omega)

/-- Serialised continuation of an object: `, k: v` for each further pair. -/
def serFieldsTail : List (Str × Json) → Str
  | [] => []
  | (k, v) :: kvs => ',' :: (serField k v ++ serFieldsTail kvs)
termination_by kvs => sizeOf kvs
decreasing_by all_goals (simp_wf; try omega)

end

/-- Skip inter-token whitespace. -/
def skipWs (s : Str) : Str := s.dropWhile isJsonWs

/-- Body of a string literal, read after the opening quote.  Returns the
decoded characters and the remaining input after the closing quote. -/
def parseStrBody : Str → Option (Str × Str)
  | [] => none
  | c :: cs =>
    if c = '"' then some ([], cs)
    else if c = '\\' then
      match cs with
      | [] => none
      | e :: es =>
        let d? : Option Char :=
          if e = '"' then some '"'
          else if e = '\\' then some '\\'
          else if e = '/' then some '/'
          else if e = 'n' then some '\n'
          else if e = 't' then some '\t'
          else if e = 'r' then some '\r'
          else if e = 'b' then some '\x08'
          else if e = 'f' then some '\x0c'
          else none
        match d? with
        | none => none
        | some d =>
          match parseStrBody es with
          | some (r, rest) => some (d :: r, rest)
          | none => none
    else
      match parseStrBody cs with
      | some (r, rest) => some (c :: r, rest)
      | none => none

/-- Insertion-ordered dictionary update: replace the value of an existing
key in place, otherwise append the new pair at the end. -/
def dictSet (kvs : List (Str × Json)) (k : Str) (v : Json) : List (Str × Json) :=
  match kvs with
  | [] => [(k, v)]
  | (k0, v0) :: t => if k0 = k then (k0, v) :: t else (k0, v0) :: dictSet t k v

/-- Dictionary built from parsed `key: value` pairs in order (later
occurrences of a key overwrite the earlier value, keeping its position). -/
def objFromList (kvs : List (Str × Json)) : List (Str × Json) :=
  kvs.foldl (fun d kv => dictSet d kv.1 kv.2) []

mutual

/-- Fuelled recursive-descent parser for one document value.  Returns the
value and the unconsumed remainder. -/
def parseVal : Nat → Str → Option (Json × Str)
  | 0, _ => none
  | fuel + 1, s0 =>
    match skipWs s0 with
    | [] => none
    | c :: cs =>
      if c = 'n' then
        match cs with
        | 'u' :: 'l' :: 'l' :: r => some (.null, r)
        | _ => none
      else if c = 't' then
        match cs with
        | 'r' :: 'u' :: 'e' :: r => some (.bool true, r)
        | _ => none
      else if c = 'f' then
        match cs with
        | 'a' :: 'l' :: 's' :: 'e' :: r => some (.bool false, r)
        | _ => none
      else if c = '"' then
        match parseStrBody cs with
        | some (sv, r) => some (.str sv, r)
        | none => none
      else if c = '-' then
        let ds := cs.takeWhile isDigitCh
        if ds.isEmpty then none
        else some (.num (-(digitsToNat ds : Int)), cs.dropWhile isDigitCh)
      else if isDigitCh c then
        some (.num (digitsToNat ((c :: cs).takeWhile isDigitCh)),
              (c :: cs).dropWhile isDigitCh)
      else if c = '[' then
        let s1 := skipWs cs
        if s1.head? = some ']' then some (.arr [], s1.tail)
        else
          match parseItems fuel s1 with
          | some (xs, r) => some (.arr xs, r)
          | none => none
      else if c = '\x7b' then
        let s1 := skipWs cs
        if s1.head? = some '\x7d' then some (.obj [], s1.tail)
        else
          match parseFields fuel s1 with
          | some (kvs, r) => some (.obj (objFromList kvs), r)
          | none => none
      else none

/-- Fuelled parser for the elements of a non-empty array, up to and
including the closing bracket. -/
def parseItems : Nat → Str → Option (List Json × Str)
  | 0, _ => none
  | fuel + 1, s =>
    match parseVal fuel s with
    | none => none
    | some (v, r) =>
      match skipWs r with
      | [] => none
      | d :: r2 =>
        if d = ',' then
          match parseItems fuel r2 with
          | some (xs, r3) => some (v :: xs, r3)
          | none => none
        else if d = ']' then some ([v], r2)
        else none

/-- Fuelled parser for the `key: value` pairs of a non-empty object, up to
and including the closing brace. -/
def parseFields : Nat → Str → Option (List (Str × Json) × Str)
  | 0, _ => none
  | fuel + 1, s =>
    match skipWs s with
    | [] => none
    | c :: cs =>
      if c = '"' then
        match parseStrBody cs with
        | none => none
        | some (k, r) =>
          match skipWs r with
          | [] => none
          | d :: r2 =>
            if d = ':' then
              match parseVal fuel r2 with
              | none => none
              | some (v, r3) =>
                match skipWs r3 with
                | [] => none
                | e :: r4 =>
                  if e = ',' then
                    match parseFields fuel r4 with
                    | some (kvs, r5) => some ((k, v) :: kvs, r5)
                    | none => none
                  else if e = '\x7d' then some ([(k, v)], r4)
                  else none
            else none
      else none

end

/-- The structured-data parse of a whole text: one value, then nothing but
whitespace.  Models the source's parse step at line 226 of `analysis.py`
(`Modelled from the spec:` the parser itself is the language's standard
library, outside the repository; the spec describes it as parsing "the
result as a structured document (object/array/scalar tree equivalent to
JSON)", failure being an expected outcome rather than an exception). -/
def parse (s : Str) : Option Json :=
  match parseVal (2 * s.length + 2) s with
  | some (v, r) => if (skipWs r).isEmpty then some v else none
  | none => none

mutual

/-- Fuel sufficient for `parseVal` to reconstruct a serialised value. -/
def pfuel : Json → Nat
  | .arr xs => 1 + ifuel xs
  | .obj kvs => 1 + ofuel kvs
  | .str _ => 1
  | .num _ => 1
  | .bool _ => 1
  | .null => 1
termination_by v => sizeOf v
decreasing_by all_goals (simp_wf; try omega)

/-- Fuel sufficient for `parseItems` on serialised elements. -/
def ifuel : List Json → Nat
  | [] => 1
  | x :: xs => 1 + pfuel x + ifuel xs
termination_by xs => sizeOf xs
decreasing_by all_goals (simp_wf; try omega)

/-- Fuel sufficient for `parseFields` on serialised pairs. -/
def ofuel : List (Str × Json) → Nat
  | [] => 1
  | (_, v) :: kvs => 1 + pfuel v + ofuel kvs
termination_by kvs => sizeOf kvs
decreasing_by all_goals (simp_wf; try omega)

end

/-- No two pairs of the (top) list share a key. -/
def keysNodup : List (Str × Json) → Bool
  | [] => true
  | p :: t => !(t.any (fun q => q.1 = p.1)) && keysNodup t

mutual

/-- Every object anywhere in the document has pairwise-distinct keys:
the documents expressible by the source language's dictionaries. -/
def noDupKeys : Json → Bool
  | .null => true
  | .bool _ => true
  | .num _ => true
  | .str _ => true
  | .arr xs => noDupKeysList xs
  | .obj kvs => keysNodup kvs && noDupKeysObj kvs
termination_by v => sizeOf v
decreasing_by all_goals (simp_wf; try omega)

/-- `noDupKeys` over the elements of an array. -/
def noDupKeysList : List Json → Bool
  | [] => true
  | x :: xs => noDupKeys x && noDupKeysList xs
termination_by xs => sizeOf xs
decreasing_by all_goals (simp_wf; try omega)

/-- `noDupKeys` over the values of an object. -/
def noDupKeysObj : List (Str × Json) → Bool
  | [] => true
  | p :: t => noDupKeys p.2 && noDupKeysObj t
termination_by kvs => sizeOf kvs
decreasing_by
  all_goals simp_wf
  all_goals try omega
  all_goals (obtain ⟨a, b⟩ := p; simp; omega)

end

/-! ### The Response Normalizer: `strip` and fence removal (lines 214-223) -/

/-- Left strip of surrounding whitespace (`str.strip`, leading side). -/
def lstrip (s : Str) : Str := s.dropWhile isPySpace

/-- Right strip of surrounding whitespace (`str.strip`, trailing side). -/
def rstrip (s : Str) : Str := (s.reverse.dropWhile isPySpace).reverse

/-- `str.strip()`: whitespace removed from both ends. -/
def strip (s : Str) : Str := rstrip (lstrip s)

/-- The tagged fenced-code-block opener. -/
def fenceJson : Str := ['\x60', '\x60', '\x60', 'j', 's', 'o', 'n']

/-- The bare fence. -/
def fence : Str := ['\x60', '\x60', '\x60']

/-- Lines 214-223: strip, remove a leading tagged opener, then a leading
bare fence, then a trailing fence, then strip again.  The two opener
removals are two consecutive `if` statements in the source, each testing
the current text. -/
def cleanOutput (raw : Str) : Str :=
  let o1 := strip raw
  let o2 := if fenceJson.isPrefixOf o1 then o1.drop 7 else o1
  let o3 := if fence.isPrefixOf o2 then o2.drop 3 else o2
  let o4 := if fence.isSuffixOf o3 then o3.take (o3.length - 3) else o3
  strip o4

/-! ### The Report Assembler: backfill of required fields (lines 228-238) -/

/-- The tool-name constant. -/
def mythrilStr : Str := "mythril".data

/-- Key `start`. -/
def kStart : Str := "start".data
/-- Key `end`. -/
def kEnd : Str := "end".data
/-- Key `duration`. -/
def kDuration : Str := "duration".data
/-- Key `contract`. -/
def kContract : Str := "contract".data
/-- Key `tool`. -/
def kTool : Str := "tool".data

/-- Substring test (the language's `in` on two strings). -/
def isSubstrL (p : Str) : Str → Bool
  | [] => p.isEmpty
  | c :: t => p.isPrefixOf (c :: t) || isSubstrL p t

/-- Whether a pair list defines a key. -/
def hasKey (kvs : List (Str × Json)) (k : Str) : Bool :=
  kvs.any (fun p => p.1 = k)

/-- First value bound to a key. -/
def getVal (kvs : List (Str × Json)) (k : Str) : Option Json :=
  match kvs with
  | [] => none
  | (k0, v0) :: t => if k0 = k then some v0 else getVal t k

/-- The membership test `k in j` of the dynamic language: key lookup on an
object, element equality against the string `k` on an array, substring
test on a string, and a `TypeError` (modelled as `.error`) on any other
value. -/
def pyContains (j : Json) (k : Str) : Except Unit Bool :=
  match j with
  | .obj kvs => .ok (hasKey kvs k)
  | .arr xs => .ok (xs.any (fun x => match x with | .str s => s = k | _ => false))
  | .str s => .ok (isSubstrL k s)
  | _ => .error ()

/-- The item assignment `j[k] = v`: dictionary update on an object, a
`TypeError` on any other value. -/
def pySetItem (j : Json) (k : Str) (v : Json) : Except Unit Json :=
  match j with
  | .obj kvs => .ok (.obj (dictSet kvs k v))
  | _ => .error ()

/-- One `if k not in json_data: json_data[k] = v` statement. -/
def backfillOne (j : Json) (k : Str) (v : Json) : Except Unit Json :=
  match pyContains j k with
  | .error e => .error e
  | .ok b => if b then .ok j else pySetItem j k v

/-- The five backfill statements of lines 229-238, in source order. -/
def backfill (j : Json) : List (Str × Json) → Except Unit Json
  | [] => .ok j
  | (k, v) :: t =>
    match backfillOne j k v with
    | .ok j2 => backfill j2 t
    | .error e => .error e

/-- The orchestrator-known values for the five required fields, in the
order the source tests them: `start`, `end`, `duration`, `contract`,
`tool`.  `duration` is the value computed at line 212 (`end - start`)
and `contract` is `sol_file`, the source file's name. -/
def reqFields (startTime endTime : Int) (solFile : Str) : List (Str × Json) :=
  [(kStart, .num startTime), (kEnd, .num endTime),
   (kDuration, .num (endTime - startTime)), (kContract, .str solFile),
   (kTool, .str mythrilStr)]

/-! ### The per-item pipeline after the model call (lines 214-256) -/

/-- Outcome of the reply-handling part of one item: a structured report
persisted to `<name>.json`, the cleaned raw text persisted to
`<name>_raw.txt`, or an uncaught exception reaching the item boundary. -/
inductive ItemResult where
  | savedJson (report : Json) : ItemResult
  | savedRaw (text : Str) : ItemResult
  | failed : ItemResult

/-- Lines 214-256: clean the reply, try to parse it; on parse failure save
the cleaned text verbatim; on success run the five backfill statements
(whose `TypeError` on non-object values escapes to the item boundary)
and save the resulting document. -/
def processReply (reply : Str) (startTime endTime : Int) (solFile : Str) : ItemResult :=
  let output := cleanOutput reply
  match parse output with
  | none => .savedRaw output
  | some j =>
    match backfill j (reqFields startTime endTime solFile) with
    | .ok j2 => .savedJson j2
    | .error _ => .failed

/-! ### The Batch Coordinator (lines 163-261) -/

/-- One matched target: its category directory and its file name. -/
structure Target where
  category : Str
  solFile : Str
deriving DecidableEq

/-- The identifier: the file name with its last four characters (the
`.sol` extension) removed (`sol_file[:-4]`, line 178). -/
def identOf (t : Target) : Str := t.solFile.take (t.solFile.length - 4)

/-- File-name suffix of a structured report artifact. -/
def jsonExt : Str := ".json".data

/-- File-name suffix of a raw-fallback artifact. -/
def rawExt : Str := "_raw.txt".data

/-- Name of the structured report artifact of a target. -/
def jsonName (t : Target) : Str := identOf t ++ jsonExt

/-- Name of the raw-fallback artifact of a target. -/
def rawName (t : Target) : Str := identOf t ++ rawExt

/-- What happens to one non-skipped item at run time: the source read
fails, the model call fails, or the model returns a reply (with the
recorded call timestamps).  The two failure events model any exception
raised before a reply is available; they are caught at the item
boundary (lines 258-261). -/
inductive ItemEvent where
  | readFail : ItemEvent
  | callFail : ItemEvent
  | reply (text : Str) (startTime endTime : Int) : ItemEvent
deriving DecidableEq

/-- Batch state: the artifact names present in the output directory, the
identifiers for which the model has been invoked, and the
`processed_count` counter. -/
structure BatchState where
  files : List Str
  invoked : List Str
  processedCount : Nat
deriving DecidableEq

/-- Lines 186-261 for one matched target: skip when `<identifier>.json`
exists; otherwise read, invoke the model, normalise, backfill and
persist, any exception being caught at the item boundary so the state
is simply left as is for that item. -/
def runItem (s : BatchState) (t : Target) (ev : ItemEvent) : BatchState :=
  if jsonName t ∈ s.files then s
  else
    match ev with
    | .readFail => s
    | .callFail => { s with invoked := s.invoked ++ [identOf t] }
    | .reply text st en =>
      let s1 : BatchState := { s with invoked := s.invoked ++ [identOf t] }
      match processReply text st en t.solFile with
      | .savedJson _ =>
        { s1 with files := s1.files ++ [jsonName t],
                  processedCount := s1.processedCount + 1 }
      | .savedRaw _ =>
        { s1 with files := s1.files ++ [rawName t],
                  processedCount := s1.processedCount + 1 }
      | .failed => s1

/-- The whole batch: the matched targets in iteration order, each with its
run-time event, processed strictly sequentially. -/
def runBatch (s : BatchState) (items : List (Target × ItemEvent)) : BatchState :=
  items.foldl (fun st p => runItem st p.1 p.2) s

/-! ### The Corpus Matcher (lines 151-182) -/

/-- One entry of a directory listing: a name and whether the entry is a
directory. -/
structure DirEntry where
  name : Str
  isDir : Bool
deriving DecidableEq

/-- Lines 151-154: the reference identifier set, one identifier per
subdirectory of the reference corpus; non-directory entries are not
added. -/
def refNames (listing : List DirEntry) : List Str :=
  (listing.filter (fun e => e.isDir)).map (fun e => e.name)

/-- One entry of the candidate-corpus listing: its name, whether it is a
directory, and (when it is one) the listing of file names inside it. -/
structure CatEntry where
  name : Str
  isDir : Bool
  files : List Str
deriving DecidableEq

/-- `.sol`-extension test (`sol_file.endswith('.sol')`, line 174). -/
def endsWithSol (f : Str) : Bool := (".sol".data).isSuffixOf f

/-- The identifier of a candidate file name (`sol_file[:-4]`). -/
def idOfName (f : Str) : Str := f.take (f.length - 4)

/-- Lines 163-182: iterate the categories, skipping non-directories;
inside each, keep the `.sol` files whose identifier is a reference
identifier. -/
def matchedTargets (input : List CatEntry) (refs : List Str) : List Target :=
  ((input.filter (fun c => c.isDir)).map (fun c =>
      ((c.files.filter (fun f => endsWithSol f && decide (idOfName f ∈ refs))).map
        (fun f => Target.mk c.name f)))).flatten

/-- The characters a serialised value can begin with. -/
def goodHead (c : Char) : Bool :=
  c = '\x7b' || c = '[' || c = '"' || c = 'n' || c = 't' || c = 'f' || c = '-' || isDigitCh c

/-- A reply wrapping the serialised document in the tagged fenced block. -/
def wrapTagged (v : Json) : Str := fenceJson ++ ('\n' :: (serialize v ++ ('\n' :: fence)))

/-- A reply wrapping the serialised document in the bare fenced block. -/
def wrapBare (v : Json) : Str := fence ++ ('\n' :: (serialize v ++ ('\n' :: fence)))

/-- The cumulative effect of the five backfill statements on an object:
for each required field in order, append it when its key is absent. -/
def applyFields (kvs : List (Str × Json)) : List (Str × Json) → List (Str × Json)
  | [] => kvs
  | (k, v) :: t => applyFields (if hasKey kvs k then kvs else kvs ++ [(k, v)]) t

/-- Whether a parsed value is an object (a dictionary). -/
def isObj : Json → Bool
  | .obj _ => true
  | _ => false

/-- The membership test on a non-object value, where it does not raise:
element equality against the key string on an array, substring test on a
string; anything else raises. -/
def memNonObj (j : Json) (k : Str) : Bool :=
  match j with
  | .arr xs => xs.any (fun x => match x with | .str s => s = k | _ => false)
  | .str s => isSubstrL k s
  | _ => false

/-- The artifacts one non-skipped item writes for its target. -/
def itemArtifacts (t : Target) (ev : ItemEvent) : List Str :=
  match ev with
  | .readFail => []
  | .callFail => []
  | .reply text st en =>
    match processReply text st en t.solFile with
    | .savedJson _ => [jsonName t]
    | .savedRaw _ => [rawName t]
    | .failed => []

/-- All candidate `.sol` files of the corpus, as targets, before the
reference-membership filter. -/
def candidateFiles (input : List CatEntry) : List Target :=
  ((input.filter (fun c => c.isDir)).map (fun c =>
      ((c.files.filter endsWithSol).map (fun f => Target.mk c.name f)))).flatten

/-- First target of the three-item witness batch. -/
def batch3A : Target := Target.mk ("c".data) ("A.sol".data)

/-- Second target of the three-item witness batch. -/
def batch3B : Target := Target.mk ("c".data) ("B.sol".data)

/-- Third target of the three-item witness batch. -/
def batch3C : Target := Target.mk ("c".data) ("C.sol".data)

/-- A batch whose middle item fails at the model call. -/
def batch3 : List (Target × ItemEvent) :=
  [(batch3A, .reply ['\x7b', '\x7d'] 0 1), (batch3B, .callFail),
   (batch3C, .reply ("junk".data) 0 1)]


/-! ### Digit and character lemmas -/

theorem isDigitCh_digitChar {n : Nat} (h : n < 10) : isDigitCh (digitChar n) = true := by
  interval_cases n <;> decide

theorem digitVal_digitChar {n : Nat} (h : n < 10) : digitVal (digitChar n) = n := by
  interval_cases n <;> decide

theorem ne_of_digit {c d : Char} (hc : isDigitCh c = true) (hd : isDigitCh d = false) :
    c ≠ d := by
  intro h; rw [h] at hc; simp [hc] at hd

theorem isJsonWs_of_digit {c : Char} (hc : isDigitCh c = true) : isJsonWs c = false := by
  by_contra h
  have h2 : isJsonWs c = true := by
    cases h3 : isJsonWs c with
    | true => rfl
    | false => exact absurd h3 h
  have h4 := h2
  simp only [isJsonWs, Bool.or_eq_true, decide_eq_true_eq] at h4
  rcases h4 with ((rfl | rfl) | rfl) | rfl <;> simp [isDigitCh] at hc

theorem isPySpace_of_digit {c : Char} (hc : isDigitCh c = true) : isPySpace c = false := by
  by_contra h
  have h2 : isPySpace c = true := by
    cases h3 : isPySpace c with
    | true => rfl
    | false => exact absurd h3 h
  have h4 := h2
  simp only [isPySpace, Bool.or_eq_true, decide_eq_true_eq] at h4
  rcases h4 with ((((rfl | rfl) | rfl) | rfl) | rfl) | rfl <;> simp [isDigitCh] at hc

theorem digitsToNat_append_single (ds : Str) (c : Char) :
    digitsToNat (ds ++ [c]) = 10 * digitsToNat ds + digitVal c := by
  simp [digitsToNat, List.foldl_append]

theorem natDigitsAux_spec : ∀ f n, n < f →
    natDigitsAux f n ≠ [] ∧ (∀ c ∈ natDigitsAux f n, isDigitCh c = true) ∧
      digitsToNat (natDigitsAux f n) = n := by
  intro f
  induction f with
  | zero => intro n hn; omega
  | succ f ih =>
    intro n hn
    by_cases h10 : n < 10
    · refine ⟨by simp [natDigitsAux, h10], ?_, ?_⟩
      · intro c hc
        simp [natDigitsAux, h10] at hc
        subst hc
        exact isDigitCh_digitChar h10
      · simp [natDigitsAux, h10, digitsToNat, digitVal_digitChar h10]
    · have hdiv : n / 10 < f := by omega
      obtain ⟨h1, h2, h3⟩ := ih (n / 10) hdiv
      have hmod : n % 10 < 10 := by omega
      refine ⟨by simp [natDigitsAux, h10], ?_, ?_⟩
      · intro c hc
        simp only [natDigitsAux, if_neg h10, List.mem_append, List.mem_singleton] at hc
        rcases hc with hc | hc
        · exact h2 c hc
        · subst hc; exact isDigitCh_digitChar hmod
      · simp only [natDigitsAux, if_neg h10]
        rw [digitsToNat_append_single, h3, digitVal_digitChar hmod]
        omega

theorem natDigits_ne_nil (n : Nat) : natDigits n ≠ [] :=
  (natDigitsAux_spec (n + 1) n (by omega)).1

theorem natDigits_digits (n : Nat) : ∀ c ∈ natDigits n, isDigitCh c = true :=
  (natDigitsAux_spec (n + 1) n (by omega)).2.1

theorem digitsToNat_natDigits (n : Nat) : digitsToNat (natDigits n) = n :=
  (natDigitsAux_spec (n + 1) n (by omega)).2.2

/-! ### Splitting a digit run from its continuation -/

theorem span_append_of (p : Char → Bool) : ∀ (ds rest : Str),
    (∀ c ∈ ds, p c = true) → (∀ c, rest.head? = some c → p c = false) →
    (ds ++ rest).takeWhile p = ds ∧ (ds ++ rest).dropWhile p = rest := by
  intro ds
  induction ds with
  | nil =>
    intro rest _ hrest
    cases rest with
    | nil => simp
    | cons r t =>
      have := hrest r (by simp)
      simp [List.takeWhile_cons, List.dropWhile_cons, this]
  | cons d ds ih =>
    intro rest hds hrest
    have hd : p d = true := hds d (by simp)
    have ihx := ih rest (fun c hc => hds c (by simp [hc])) hrest
    simp [List.takeWhile_cons, List.dropWhile_cons, hd, ihx.1, ihx.2]

/-! ### String-literal body roundtrip -/

theorem parseStrBody_escape : ∀ (s rest : Str),
    parseStrBody (escStr s ++ '"' :: rest) = some (s, rest) := by
  intro s
  induction s with
  | nil =>
    intro rest
    rw [escStr, List.nil_append, parseStrBody.eq_def]
    simp
  | cons c cs ih =>
    intro rest
    by_cases h1 : c = '"'
    · subst h1
      rw [escStr, escChar]
      simp only [if_pos rfl, List.cons_append, List.append_assoc, List.nil_append]
      rw [parseStrBody.eq_def]
      simp [ih]
    · by_cases h2 : c = '\\'
      · subst h2
        rw [escStr, escChar]
        simp only [if_neg (by decide : ¬('\\' = '"')), if_pos rfl, List.cons_append,
          List.append_assoc, List.nil_append]
        rw [parseStrBody.eq_def]
        simp [ih]
      · rw [escStr, escChar]
        simp only [if_neg h1, if_neg h2, List.cons_append, List.nil_append]
        rw [parseStrBody.eq_def]
        simp [h1, h2, ih]

/-! ### Dictionary lemmas -/

theorem hasKey_cons (k0 : Str) (v0 : Json) (t : List (Str × Json)) (k : Str) :
    hasKey ((k0, v0) :: t) k = (decide (k0 = k) || hasKey t k) := by
  simp [hasKey]

theorem hasKey_append (a b : List (Str × Json)) (k : Str) :
    hasKey (a ++ b) k = (hasKey a k || hasKey b k) := by
  simp [hasKey, List.any_append]

theorem dictSet_absent : ∀ (kvs : List (Str × Json)) (k : Str) (v : Json),
    hasKey kvs k = false → dictSet kvs k v = kvs ++ [(k, v)] := by
  intro kvs
  induction kvs with
  | nil => intro k v _; rfl
  | cons p t ih =>
    intro k v h
    obtain ⟨k0, v0⟩ := p
    rw [hasKey_cons] at h
    simp only [Bool.or_eq_false_iff, decide_eq_false_iff_not] at h
    rw [dictSet, if_neg h.1, ih k v h.2]
    simp

theorem objFromList_go : ∀ (kvs acc : List (Str × Json)),
    (∀ p ∈ kvs, hasKey acc p.1 = false) → keysNodup kvs = true →
    kvs.foldl (fun d kv => dictSet d kv.1 kv.2) acc = acc ++ kvs := by
  intro kvs
  induction kvs with
  | nil => intro acc _ _; simp
  | cons p t ih =>
    intro acc hfresh hnodup
    obtain ⟨k, v⟩ := p
    rw [keysNodup] at hnodup
    simp only [Bool.and_eq_true, Bool.not_eq_true', List.any_eq_false,
      decide_eq_false_iff_not, decide_eq_true_eq] at hnodup
    have hset : dictSet acc k v = acc ++ [(k, v)] :=
      dictSet_absent acc k v (hfresh (k, v) (by simp))
    have hnext : ∀ p ∈ t, hasKey (acc ++ [(k, v)]) p.1 = false := by
      intro p hp
      rw [hasKey_append]
      have h1 : hasKey acc p.1 = false := hfresh p (by simp [hp])
      have h2 : hasKey [(k, v)] p.1 = false := by
        simp only [hasKey, List.any_cons, List.any_nil, Bool.or_false,
          decide_eq_false_iff_not]
        exact fun h => hnodup.1 p hp h.symm
      simp [h1, h2]
    calc ((k, v) :: t).foldl (fun d kv => dictSet d kv.1 kv.2) acc
        = t.foldl (fun d kv => dictSet d kv.1 kv.2) (acc ++ [(k, v)]) := by
          simp [List.foldl_cons, hset]
      _ = (acc ++ [(k, v)]) ++ t := ih (acc ++ [(k, v)]) hnext hnodup.2
      _ = acc ++ (k, v) :: t := by simp

theorem objFromList_eq_self (kvs : List (Str × Json)) (h : keysNodup kvs = true) :
    objFromList kvs = kvs := by
  have := objFromList_go kvs [] (by intro p _; simp [hasKey]) h
  simpa [objFromList] using this

/-! ### Head and tail shape of serialised documents -/

theorem serialize_head : ∀ v : Json, ∃ c t, serialize v = c :: t ∧ goodHead c = true := by
  intro v
  match v with
  | .null => exact ⟨'n', ['u', 'l', 'l'], by rw [serialize, litNull], by decide⟩
  | .bool true => exact ⟨'t', ['r', 'u', 'e'], by rw [serialize, litTrue], by decide⟩
  | .bool false => exact ⟨'f', ['a', 'l', 's', 'e'], by rw [serialize, litFalse], by decide⟩
  | .num n =>
    rw [serialize, serializeNum]
    by_cases hn : n < 0
    · exact ⟨'-', _, by rw [if_pos hn], by decide⟩
    · rw [if_neg hn]
      obtain ⟨c, t, hct⟩ := List.exists_cons_of_ne_nil (natDigits_ne_nil n.toNat)
      refine ⟨c, t, hct, ?_⟩
      have hd : isDigitCh c = true := natDigits_digits n.toNat c (by rw [hct]; simp)
      simp [goodHead, hd]
  | .str s => exact ⟨'"', _, by rw [serialize], by decide⟩
  | .arr [] => exact ⟨'[', _, by rw [serialize], by decide⟩
  | .arr (x :: xs) => exact ⟨'[', _, by rw [serialize], by decide⟩
  | .obj [] => exact ⟨'\x7b', _, by rw [serialize], by decide⟩
  | .obj ((k, v) :: kvs) => exact ⟨'\x7b', _, by rw [serialize], by decide⟩

theorem goodHead_not_ws {c : Char} (h : goodHead c = true) : isJsonWs c = false := by
  simp only [goodHead, Bool.or_eq_true, decide_eq_true_eq] at h
  rcases h with ((((((h | h) | h) | h) | h) | h) | h) | h
  all_goals first
    | (subst h; decide)
    | (exact isJsonWs_of_digit h)

theorem goodHead_not_py {c : Char} (h : goodHead c = true) : isPySpace c = false := by
  simp only [goodHead, Bool.or_eq_true, decide_eq_true_eq] at h
  rcases h with ((((((h | h) | h) | h) | h) | h) | h) | h
  all_goals first
    | (subst h; decide)
    | (exact isPySpace_of_digit h)

theorem goodHead_ne_rb {c : Char} (h : goodHead c = true) : c ≠ ']' := by
  simp only [goodHead, Bool.or_eq_true, decide_eq_true_eq] at h
  rcases h with ((((((h | h) | h) | h) | h) | h) | h) | h
  all_goals first
    | (subst h; decide)
    | (exact ne_of_digit h (by decide))

theorem goodHead_ne_rc {c : Char} (h : goodHead c = true) : c ≠ '\x7d' := by
  simp only [goodHead, Bool.or_eq_true, decide_eq_true_eq] at h
  rcases h with ((((((h | h) | h) | h) | h) | h) | h) | h
  all_goals first
    | (subst h; decide)
    | (exact ne_of_digit h (by decide))

theorem serialize_last : ∀ v : Json, ∃ a c, serialize v = a ++ [c] ∧ isPySpace c = false := by
  intro v
  match v with
  | .null => exact ⟨['n', 'u', 'l'], 'l', by rw [serialize, litNull]; rfl, by decide⟩
  | .bool true => exact ⟨['t', 'r', 'u'], 'e', by rw [serialize, litTrue]; rfl, by decide⟩
  | .bool false => exact ⟨['f', 'a', 'l', 's'], 'e', by rw [serialize, litFalse]; rfl, by decide⟩
  | .num n =>
    rw [serialize, serializeNum]
    by_cases hn : n < 0
    · rw [if_pos hn]
      have hne := natDigits_ne_nil n.natAbs
      refine ⟨'-' :: (natDigits n.natAbs).dropLast, (natDigits n.natAbs).getLast hne, ?_, ?_⟩
      · rw [List.cons_append, List.dropLast_append_getLast hne]
      · exact isPySpace_of_digit
          (natDigits_digits n.natAbs _ (List.getLast_mem hne))
    · rw [if_neg hn]
      have hne := natDigits_ne_nil n.toNat
      refine ⟨(natDigits n.toNat).dropLast, (natDigits n.toNat).getLast hne, ?_, ?_⟩
      · rw [List.dropLast_append_getLast hne]
      · exact isPySpace_of_digit
          (natDigits_digits n.toNat _ (List.getLast_mem hne))
  | .str s =>
    refine ⟨'"' :: escStr s, '"', ?_, by decide⟩
    rw [serialize]
    rfl
  | .arr [] => exact ⟨['['], ']', by rw [serialize]; rfl, by decide⟩
  | .arr (x :: xs) =>
    refine ⟨'[' :: (serialize x ++ serTail xs), ']', ?_, by decide⟩
    rw [serialize]
    simp
  | .obj [] => exact ⟨['\x7b'], '\x7d', by rw [serialize]; rfl, by decide⟩
  | .obj ((k, v) :: kvs) =>
    refine ⟨'\x7b' :: (serField k v ++ serFieldsTail kvs), '\x7d', ?_, by decide⟩
    rw [serialize]
    simp

/-! ### Parser-serialiser roundtrip -/

theorem skipWs_cons_nws {c : Char} {t : Str} (h : isJsonWs c = false) :
    skipWs (c :: t) = c :: t := by
  simp [skipWs, List.dropWhile_cons, h]

theorem ndHead_cons {c0 : Char} (h : isDigitCh c0 = false) (t : Str) :
    ∀ c, (c0 :: t).head? = some c → isDigitCh c = false := by
  intro c hc
  rw [List.head?_cons, Option.some.injEq] at hc
  subst hc
  exact h

theorem pfuel_pos : ∀ v : Json, 1 ≤ pfuel v := by
  intro v
  cases v with
  | null => rw [pfuel]
  | bool b => rw [pfuel]
  | num n => rw [pfuel]
  | str s => rw [pfuel]
  | arr xs => rw [pfuel]; omega
  | obj kvs => rw [pfuel]; omega

theorem roundAux : ∀ fuel : Nat,
    (∀ v rest, pfuel v ≤ fuel → noDupKeys v = true →
        (∀ c, rest.head? = some c → isDigitCh c = false) →
      parseVal fuel (serialize v ++ rest) = some (v, rest)) ∧
    (∀ x xs rest, ifuel (x :: xs) ≤ fuel → noDupKeysList (x :: xs) = true →
        (∀ c, rest.head? = some c → isDigitCh c = false) →
      parseItems fuel (serialize x ++ (serTail xs ++ (']' :: rest))) = some (x :: xs, rest)) ∧
    (∀ k v kvs rest, ofuel ((k, v) :: kvs) ≤ fuel → noDupKeysObj ((k, v) :: kvs) = true →
        (∀ c, rest.head? = some c → isDigitCh c = false) →
      parseFields fuel (serField k v ++ (serFieldsTail kvs ++ ('\x7d' :: rest))) =
        some ((k, v) :: kvs, rest)) := by
  intro fuel
  induction fuel with
  | zero =>
    refine ⟨?_, ?_, ?_⟩
    · intro v rest h _ _
      exact absurd h (by have := pfuel_pos v; omega)
    · intro x xs rest h _ _
      exact absurd h (by rw [ifuel]; omega)
    · intro k v kvs rest h _ _
      exact absurd h (by rw [ofuel]; omega)
  | succ F IH =>
    obtain ⟨IHv, IHi, IHf⟩ := IH
    refine ⟨?_, ?_, ?_⟩
    · -- parseVal reconstructs any serialised value
      intro v rest hfuel hdup hnd
      cases v with
      | null =>
        rw [serialize, litNull, parseVal.eq_2, List.cons_append, skipWs_cons_nws (by decide)]
        simp
      | bool b =>
        cases b with
        | true =>
          rw [serialize, litTrue, parseVal.eq_2, List.cons_append, skipWs_cons_nws (by decide)]
          simp
        | false =>
          rw [serialize, litFalse, parseVal.eq_2, List.cons_append,
            skipWs_cons_nws (by decide)]
          simp
      | num n =>
        by_cases hn : n < 0
        · have hds := natDigits_digits n.natAbs
          have hne := natDigits_ne_nil n.natAbs
          have hspan := span_append_of isDigitCh (natDigits n.natAbs) rest hds hnd
          rw [serialize, serializeNum, if_pos hn, parseVal.eq_2, List.cons_append,
            skipWs_cons_nws (by decide)]
          simp only []
          rw [if_neg (by decide : ¬('-' = 'n')), if_neg (by decide : ¬('-' = 't')),
            if_neg (by decide : ¬('-' = 'f')), if_neg (by decide : ¬('-' = '"')),
            if_pos (by trivial)]
          simp only [hspan.1, hspan.2, digitsToNat_natDigits]
          rw [if_neg (by simp [List.isEmpty_iff, hne])]
          have hval : (-(n.natAbs : Int)) = n := by omega
          rw [hval]
        · have hds := natDigits_digits n.toNat
          have hne := natDigits_ne_nil n.toNat
          obtain ⟨c, t, hct⟩ := List.exists_cons_of_ne_nil hne
          have hspan := span_append_of isDigitCh (natDigits n.toNat) rest hds hnd
          rw [serialize, serializeNum, if_neg hn, parseVal.eq_2]
          rw [hct] at hspan ⊢
          have hcd : isDigitCh c = true := hds c (by rw [hct]; simp)
          rw [List.cons_append, skipWs_cons_nws (isJsonWs_of_digit hcd)]
          simp only []
          rw [if_neg (ne_of_digit hcd (by decide)), if_neg (ne_of_digit hcd (by decide)),
            if_neg (ne_of_digit hcd (by decide)), if_neg (ne_of_digit hcd (by decide)),
            if_neg (ne_of_digit hcd (by decide)), if_pos hcd]
          rw [← List.cons_append, hspan.1, hspan.2, ← hct, digitsToNat_natDigits]
          simp [Int.toNat_of_nonneg (by omega : (0 : Int) ≤ n)]
      | str s =>
        rw [serialize, parseVal.eq_2]
        simp only [List.cons_append, List.append_assoc, List.singleton_append, List.nil_append]
        rw [skipWs_cons_nws (by decide)]
        simp [parseStrBody_escape]
      | arr xs =>
        cases xs with
        | nil =>
          rw [serialize, parseVal.eq_2]
          simp only [List.cons_append, List.singleton_append, List.nil_append]
          rw [skipWs_cons_nws (by decide)]
          simp [skipWs, List.dropWhile_cons, isJsonWs, isDigitCh]
        | cons x xs =>
          obtain ⟨c, t, hct, hgh⟩ := serialize_head x
          have hfl : ifuel (x :: xs) ≤ F := by rw [pfuel] at hfuel; omega
          have hdl : noDupKeysList (x :: xs) = true := by rw [noDupKeys] at hdup; exact hdup
          have hstep := IHi x xs rest hfl hdl hnd
          rw [serialize, parseVal.eq_2]
          simp only [List.cons_append, List.append_assoc, List.singleton_append, List.nil_append]
          rw [skipWs_cons_nws (by decide)]
          simp only []
          rw [if_neg (by decide : ¬('[' = 'n')), if_neg (by decide : ¬('[' = 't')),
            if_neg (by decide : ¬('[' = 'f')), if_neg (by decide : ¬('[' = '"')),
            if_neg (by decide : ¬('[' = '-')),
            if_neg (by decide : ¬(isDigitCh '[' = true)), if_pos (by trivial)]
          rw [hct]
          simp only [List.cons_append]
          rw [skipWs_cons_nws (goodHead_not_ws hgh)]
          rw [if_neg (by
            simp only [List.head?_cons, Option.some.injEq]
            exact goodHead_ne_rb hgh)]
          rw [← List.cons_append, ← hct, hstep]
      | obj kvs =>
        cases kvs with
        | nil =>
          rw [serialize, parseVal.eq_2]
          simp only [List.cons_append, List.singleton_append, List.nil_append]
          rw [skipWs_cons_nws (by decide)]
          simp [skipWs, List.dropWhile_cons, isJsonWs, isDigitCh]
        | cons kv kvs =>
          obtain ⟨k, v⟩ := kv
          have hfl : ofuel ((k, v) :: kvs) ≤ F := by rw [pfuel] at hfuel; omega
          rw [noDupKeys] at hdup
          simp only [Bool.and_eq_true] at hdup
          have hstep := IHf k v kvs rest hfl hdup.2 hnd
          rw [serialize, parseVal.eq_2]
          simp only [List.cons_append, List.append_assoc, List.singleton_append, List.nil_append]
          rw [skipWs_cons_nws (by decide)]
          simp only []
          rw [if_neg (by decide : ¬('\x7b' = 'n')), if_neg (by decide : ¬('\x7b' = 't')),
            if_neg (by decide : ¬('\x7b' = 'f')), if_neg (by decide : ¬('\x7b' = '"')),
            if_neg (by decide : ¬('\x7b' = '-')),
            if_neg (by decide : ¬(isDigitCh '\x7b' = true)),
            if_neg (by decide : ¬('\x7b' = '[')), if_pos (by trivial)]
          rw [serField] at hstep
          simp only [List.cons_append, List.append_assoc, List.singleton_append,
            List.nil_append] at hstep
          rw [serField]
          simp only [List.cons_append, List.append_assoc, List.singleton_append, List.nil_append]
          rw [skipWs_cons_nws (by decide)]
          rw [if_neg (by
            simp only [List.head?_cons, Option.some.injEq]
            decide)]
          rw [hstep]
          simp only []
          rw [objFromList_eq_self _ hdup.1]
    · -- parseItems reconstructs serialised elements up to the closing bracket
      intro x xs rest hfuel hdup hnd
      rw [ifuel] at hfuel
      rw [noDupKeysList] at hdup
      simp only [Bool.and_eq_true] at hdup
      have hnd2 : ∀ c, (serTail xs ++ (']' :: rest)).head? = some c → isDigitCh c = false := by
        cases xs with
        | nil => rw [serTail]; exact ndHead_cons (by decide) rest
        | cons y ys =>
          rw [serTail]
          simp only [List.cons_append]
          exact ndHead_cons (by decide) _
      have hv := IHv x (serTail xs ++ (']' :: rest)) (by omega) hdup.1 hnd2
      rw [parseItems.eq_2, hv]
      simp only []
      cases xs with
      | nil =>
        rw [serTail]
        simp only [List.nil_append]
        rw [skipWs_cons_nws (by decide)]
        simp
      | cons y ys =>
        have hstep := IHi y ys rest (by rw [ifuel] at hfuel ⊢; omega) hdup.2 hnd
        rw [serTail]
        simp only [List.cons_append, List.append_assoc, List.nil_append]
        rw [skipWs_cons_nws (by decide)]
        simp only []
        rw [if_pos (by trivial), hstep]
    · -- parseFields reconstructs serialised pairs up to the closing brace
      intro k v kvs rest hfuel hdup hnd
      rw [ofuel] at hfuel
      rw [noDupKeysObj] at hdup
      simp only [Bool.and_eq_true] at hdup
      have hnd2 : ∀ c, (serFieldsTail kvs ++ ('\x7d' :: rest)).head? = some c →
          isDigitCh c = false := by
        cases kvs with
        | nil => rw [serFieldsTail]; exact ndHead_cons (by decide) rest
        | cons p t =>
          obtain ⟨k2, v2⟩ := p
          rw [serFieldsTail]
          simp only [List.cons_append]
          exact ndHead_cons (by decide) _
      have hv := IHv v (serFieldsTail kvs ++ ('\x7d' :: rest)) (by omega) hdup.1 hnd2
      rw [parseFields.eq_2, serField]
      simp only [List.cons_append, List.append_assoc, List.singleton_append, List.nil_append]
      rw [skipWs_cons_nws (by decide)]
      simp only []
      rw [if_pos (by trivial), parseStrBody_escape]
      simp only []
      rw [skipWs_cons_nws (by decide)]
      simp only []
      rw [if_pos (by trivial), hv]
      simp only []
      cases kvs with
      | nil =>
        rw [serFieldsTail]
        simp only [List.nil_append]
        rw [skipWs_cons_nws (by decide)]
        simp
      | cons p t =>
        obtain ⟨k2, v2⟩ := p
        have hstep := IHf k2 v2 t rest (by rw [ofuel] at hfuel ⊢; omega) hdup.2 hnd
        rw [serFieldsTail]
        simp only [List.cons_append, List.append_assoc, List.nil_append]
        rw [skipWs_cons_nws (by decide)]
        simp only []
        rw [if_pos (by trivial), hstep]

/-- Structural induction over documents with membership hypotheses for the
nested lists. -/
theorem Json.indOn {P : Json → Prop}
    (hnull : P .null) (hbool : ∀ b, P (.bool b)) (hnum : ∀ n, P (.num n))
    (hstr : ∀ s, P (.str s)) (harr : ∀ xs, (∀ x ∈ xs, P x) → P (.arr xs))
    (hobj : ∀ kvs, (∀ kv ∈ kvs, P kv.2) → P (.obj kvs)) : ∀ v, P v
  | .null => hnull
  | .bool b => hbool b
  | .num n => hnum n
  | .str s => hstr s
  | .arr xs =>
    harr xs (fun x hx => Json.indOn hnull hbool hnum hstr harr hobj x)
  | .obj kvs =>
    hobj kvs (fun kv hkv => Json.indOn hnull hbool hnum hstr harr hobj kv.2)
termination_by v => sizeOf v
decreasing_by
  · have := List.sizeOf_lt_of_mem hx
    simp only [Json.arr.sizeOf_spec]
    omega
  · have h1 := List.sizeOf_lt_of_mem hkv
    have h2 : sizeOf kv.2 < sizeOf kv := by
      obtain ⟨a, b⟩ := kv
      simp only [Prod.mk.sizeOf_spec]
      omega
    simp only [Json.obj.sizeOf_spec]
    omega

theorem serializeNum_ne_nil (n : Int) : serializeNum n ≠ [] := by
  rw [serializeNum]
  by_cases hn : n < 0
  · rw [if_pos hn]; simp
  · rw [if_neg hn]; exact natDigits_ne_nil n.toNat

theorem ifuel_le_aux : ∀ xs : List Json,
    (∀ x ∈ xs, pfuel x ≤ 2 * (serialize x).length) →
    ifuel xs ≤ 2 * (serTail xs).length + 2 := by
  intro xs
  induction xs with
  | nil => intro _; rw [ifuel, serTail]; simp
  | cons y ys ih =>
    intro h
    have h1 := h y (by simp)
    have h2 := ih (fun x hx => h x (by simp [hx]))
    rw [ifuel, serTail]
    simp only [List.length_cons, List.length_append]
    omega

theorem ofuel_le_aux : ∀ kvs : List (Str × Json),
    (∀ kv ∈ kvs, pfuel kv.2 ≤ 2 * (serialize kv.2).length) →
    ofuel kvs ≤ 2 * (serFieldsTail kvs).length + 2 := by
  intro kvs
  induction kvs with
  | nil => intro _; rw [ofuel, serFieldsTail]; simp
  | cons p t ih =>
    obtain ⟨k, v⟩ := p
    intro h
    have h1 := h (k, v) (by simp)
    have h2 := ih (fun kv hkv => h kv (by simp [hkv]))
    rw [ofuel, serFieldsTail, serField]
    simp only [List.length_cons, List.length_append] at h1 h2 ⊢
    omega

theorem pfuel_le (v : Json) : pfuel v ≤ 2 * (serialize v).length := by
  induction v using Json.indOn with
  | hnull => rw [pfuel, serialize, litNull]; simp
  | hbool b => cases b <;> first
    | (rw [pfuel, serialize, litTrue]; simp)
    | (rw [pfuel, serialize, litFalse]; simp)
  | hnum n =>
    have h1 : (serializeNum n).length ≥ 1 :=
      List.length_pos.mpr (serializeNum_ne_nil n)
    rw [pfuel, serialize]
    omega
  | hstr s => rw [pfuel, serialize]; simp; omega
  | harr xs hIH =>
    cases xs with
    | nil => rw [pfuel, ifuel, serialize]; simp
    | cons x xs =>
      have h1 := hIH x (by simp)
      have h2 := ifuel_le_aux xs (fun y hy => hIH y (by simp [hy]))
      rw [pfuel, ifuel, serialize]
      simp only [List.length_cons, List.length_append]
      omega
  | hobj kvs hIH =>
    cases kvs with
    | nil => rw [pfuel, ofuel, serialize]; simp
    | cons p t =>
      obtain ⟨k, v⟩ := p
      have h1 := hIH (k, v) (by simp)
      have h2 := ofuel_le_aux t (fun kv hkv => hIH kv (by simp [hkv]))
      rw [pfuel, ofuel, serialize, serField]
      simp only [List.length_cons, List.length_append] at h1 h2 ⊢
      omega

/-- The parser inverts the serialiser on any document whose objects have
pairwise-distinct keys. -/
theorem parse_serialize (v : Json) (h : noDupKeys v = true) :
    parse (serialize v) = some v := by
  have hb := pfuel_le v
  have hr := (roundAux (2 * (serialize v).length + 2)).1 v [] (by omega) h
    (by intro c hc; simp at hc)
  rw [List.append_nil] at hr
  rw [parse, hr]
  simp [skipWs]

/-! ### Behaviour of `strip` on fenced wrappings -/

theorem lstrip_cons_nps {c : Char} {t : Str} (h : isPySpace c = false) :
    lstrip (c :: t) = c :: t := by
  simp [lstrip, List.dropWhile_cons, h]

theorem lstrip_cons_ps {c : Char} {t : Str} (h : isPySpace c = true) :
    lstrip (c :: t) = lstrip t := by
  simp [lstrip, List.dropWhile_cons, h]

theorem rstrip_append_nps {s : Str} {c : Char} (h : isPySpace c = false) :
    rstrip (s ++ [c]) = s ++ [c] := by
  rw [rstrip, List.reverse_append]
  simp only [List.reverse_cons, List.reverse_nil, List.nil_append, List.singleton_append]
  rw [List.dropWhile_cons, h]
  simp

theorem rstrip_append_ps {s : Str} {c : Char} (hc : isPySpace c = true)
    (h : rstrip s = s) : rstrip (s ++ [c]) = s := by
  have h3 := congrArg List.reverse h
  rw [rstrip, List.reverse_reverse] at h3
  rw [rstrip, List.reverse_append]
  simp only [List.reverse_cons, List.reverse_nil, List.nil_append, List.singleton_append]
  simp [List.dropWhile_cons, hc, h3]

theorem lstrip_serialize (v : Json) : lstrip (serialize v) = serialize v := by
  obtain ⟨c, t, hct, hgh⟩ := serialize_head v
  rw [hct]
  exact lstrip_cons_nps (goodHead_not_py hgh)

theorem rstrip_serialize (v : Json) : rstrip (serialize v) = serialize v := by
  obtain ⟨a, c, hac, hc⟩ := serialize_last v
  rw [hac]
  exact rstrip_append_nps hc

theorem strip_serialize (v : Json) : strip (serialize v) = serialize v := by
  rw [strip, lstrip_serialize, rstrip_serialize]

theorem strip_nl (v : Json) : strip ('\n' :: (serialize v ++ ['\n'])) = serialize v := by
  rw [strip, lstrip_cons_ps (by decide)]
  have h1 : lstrip (serialize v ++ ['\n']) = serialize v ++ ['\n'] := by
    obtain ⟨c, t, hct, hgh⟩ := serialize_head v
    rw [hct, List.cons_append]
    exact lstrip_cons_nps (goodHead_not_py hgh)
  rw [h1, rstrip_append_ps (by decide) (rstrip_serialize v)]

theorem strip_wrap_core (v : Json) (pre : Str) (hpre : pre ≠ [])
    (hhead : ∀ c, pre.head? = some c → isPySpace c = false) :
    strip (pre ++ ('\n' :: (serialize v ++ ('\n' :: fence)))) =
      pre ++ ('\n' :: (serialize v ++ ('\n' :: fence))) := by
  obtain ⟨c, t, hct⟩ := List.exists_cons_of_ne_nil hpre
  have hc : isPySpace c = false := hhead c (by rw [hct]; simp)
  have hshape : pre ++ ('\n' :: (serialize v ++ ('\n' :: fence))) =
      (pre ++ ('\n' :: (serialize v ++ ['\n', '\x60', '\x60']))) ++ ['\x60'] := by
    rw [fence]
    simp
  have hl : lstrip (pre ++ ('\n' :: (serialize v ++ ('\n' :: fence)))) =
      pre ++ ('\n' :: (serialize v ++ ('\n' :: fence))) := by
    rw [hct]
    simp only [List.cons_append]
    exact lstrip_cons_nps hc
  rw [strip, hl, hshape, rstrip_append_nps (by decide)]

theorem cleanOutput_wrapTagged (v : Json) : cleanOutput (wrapTagged v) = serialize v := by
  have h1 : strip (wrapTagged v) = wrapTagged v := by
    rw [wrapTagged]
    exact strip_wrap_core v fenceJson (by rw [fenceJson]; simp)
      (by intro c hc; rw [fenceJson] at hc; simp at hc; rw [← hc]; rfl)
  have h2 : fenceJson.isPrefixOf (wrapTagged v) = true := by
    rw [wrapTagged]
    exact List.isPrefixOf_iff_prefix.mpr (List.prefix_append _ _)
  have h3 : (wrapTagged v).drop 7 = '\n' :: (serialize v ++ ('\n' :: fence)) := by
    rw [wrapTagged, show (7 : Nat) = fenceJson.length from rfl, List.drop_left]
  have h4 : fence.isPrefixOf ('\n' :: (serialize v ++ ('\n' :: fence))) = false := by
    rw [fence]
    simp [List.isPrefixOf]
  have hshape : '\n' :: (serialize v ++ ('\n' :: fence)) =
      ('\n' :: (serialize v ++ ['\n'])) ++ fence := by simp
  have h5 : fence.isSuffixOf ('\n' :: (serialize v ++ ('\n' :: fence))) = true := by
    rw [hshape]
    exact List.isSuffixOf_iff_suffix.mpr (List.suffix_append _ _)
  have h6 : ('\n' :: (serialize v ++ ('\n' :: fence))).take
      (('\n' :: (serialize v ++ ('\n' :: fence))).length - 3) =
      '\n' :: (serialize v ++ ['\n']) := by
    rw [hshape]
    have hlen : (('\n' :: (serialize v ++ ['\n'])) ++ fence).length - 3 =
        ('\n' :: (serialize v ++ ['\n'])).length := by
      rw [fence]
      simp
    rw [hlen, List.take_left]
  rw [cleanOutput]
  simp only [h1, h2, h3, h4, h5, h6, if_true, if_false, Bool.false_eq_true, if_pos, ite_true,
    ite_false]
  exact strip_nl v

theorem cleanOutput_wrapBare (v : Json) : cleanOutput (wrapBare v) = serialize v := by
  have h1 : strip (wrapBare v) = wrapBare v := by
    rw [wrapBare]
    exact strip_wrap_core v fence (by rw [fence]; simp)
      (by intro c hc; rw [fence] at hc; simp at hc; rw [← hc]; rfl)
  have h2 : fenceJson.isPrefixOf (wrapBare v) = false := by
    rw [wrapBare, fenceJson, fence]
    simp [List.isPrefixOf]
  have h3 : fence.isPrefixOf (wrapBare v) = true := by
    rw [wrapBare]
    exact List.isPrefixOf_iff_prefix.mpr (List.prefix_append _ _)
  have h4 : (wrapBare v).drop 3 = '\n' :: (serialize v ++ ('\n' :: fence)) := by
    rw [wrapBare, show (3 : Nat) = fence.length from rfl, List.drop_left]
  have hshape : '\n' :: (serialize v ++ ('\n' :: fence)) =
      ('\n' :: (serialize v ++ ['\n'])) ++ fence := by simp
  have h5 : fence.isSuffixOf ('\n' :: (serialize v ++ ('\n' :: fence))) = true := by
    rw [hshape]
    exact List.isSuffixOf_iff_suffix.mpr (List.suffix_append _ _)
  have h6 : ('\n' :: (serialize v ++ ('\n' :: fence))).take
      (('\n' :: (serialize v ++ ('\n' :: fence))).length - 3) =
      '\n' :: (serialize v ++ ['\n']) := by
    rw [hshape]
    have hlen : (('\n' :: (serialize v ++ ['\n'])) ++ fence).length - 3 =
        ('\n' :: (serialize v ++ ['\n'])).length := by
      rw [fence]
      simp
    rw [hlen, List.take_left]
  rw [cleanOutput]
  simp only [h1, h2, h3, h4, h5, h6, if_true, if_false, Bool.false_eq_true, ite_true, ite_false]
  exact strip_nl v

/-! ### Backfill behaviour on parsed objects -/

theorem backfill_obj : ∀ (fs : List (Str × Json)) (kvs : List (Str × Json)),
    backfill (.obj kvs) fs = .ok (.obj (applyFields kvs fs)) := by
  intro fs
  induction fs with
  | nil => intro kvs; rw [backfill, applyFields]
  | cons p t ih =>
    intro kvs
    obtain ⟨k, v⟩ := p
    rw [backfill, backfillOne, pyContains, applyFields]
    cases h3 : hasKey kvs k with
    | true => simp [ih]
    | false => simp [ih, dictSet_absent kvs k v h3, pySetItem]

theorem getVal_append_some {a : List (Str × Json)} {k : Str} {v : Json}
    (b : List (Str × Json)) (h : getVal a k = some v) :
    getVal (a ++ b) k = some v := by
  induction a with
  | nil => rw [getVal] at h; exact absurd h (by simp)
  | cons p t ih =>
    obtain ⟨k0, v0⟩ := p
    rw [getVal] at h
    rw [List.cons_append, getVal]
    by_cases h0 : k0 = k
    · rw [if_pos h0] at h ⊢; exact h
    · rw [if_neg h0] at h ⊢; exact ih h

theorem getVal_append_none {a : List (Str × Json)} {k : Str}
    (b : List (Str × Json)) (h : getVal a k = none) :
    getVal (a ++ b) k = getVal b k := by
  induction a with
  | nil => simp
  | cons p t ih =>
    obtain ⟨k0, v0⟩ := p
    rw [getVal] at h
    rw [List.cons_append, getVal]
    by_cases h0 : k0 = k
    · rw [if_pos h0] at h; exact absurd h (by simp)
    · rw [if_neg h0] at h ⊢; exact ih h

theorem getVal_none_of_hasKey_false : ∀ {kvs : List (Str × Json)} {k : Str},
    hasKey kvs k = false → getVal kvs k = none := by
  intro kvs
  induction kvs with
  | nil => intro k _; rw [getVal]
  | cons p t ih =>
    intro k h
    obtain ⟨k0, v0⟩ := p
    rw [hasKey_cons] at h
    simp only [Bool.or_eq_false_iff, decide_eq_false_iff_not] at h
    rw [getVal, if_neg h.1]
    exact ih h.2

theorem getVal_some_of_hasKey : ∀ {kvs : List (Str × Json)} {k : Str},
    hasKey kvs k = true → ∃ v, getVal kvs k = some v := by
  intro kvs
  induction kvs with
  | nil => intro k h; rw [hasKey] at h; exact absurd h (by simp)
  | cons p t ih =>
    intro k h
    obtain ⟨k0, v0⟩ := p
    rw [getVal]
    by_cases h0 : k0 = k
    · rw [if_pos h0]; exact ⟨v0, rfl⟩
    · rw [if_neg h0]
      rw [hasKey_cons] at h
      simp only [Bool.or_eq_true, decide_eq_true_eq] at h
      rcases h with h | h
      · exact absurd h h0
      · exact ih h

theorem hasKey_of_getVal_some : ∀ {kvs : List (Str × Json)} {k : Str} {v : Json},
    getVal kvs k = some v → hasKey kvs k = true := by
  intro kvs
  induction kvs with
  | nil => intro k v h; rw [getVal] at h; exact absurd h (by simp)
  | cons p t ih =>
    intro k v h
    obtain ⟨k0, v0⟩ := p
    rw [getVal] at h
    rw [hasKey_cons]
    by_cases h0 : k0 = k
    · simp [h0]
    · rw [if_neg h0] at h
      simp [ih h]

theorem getVal_append_single_ne {kvs : List (Str × Json)} {k0 k : Str} {v0 : Json}
    (h : k0 ≠ k) : getVal (kvs ++ [(k0, v0)]) k = getVal kvs k := by
  cases hg : getVal kvs k with
  | some v => exact getVal_append_some _ hg
  | none =>
    rw [getVal_append_none _ hg, getVal, if_neg h, getVal]

theorem applyFields_hasKey_stable : ∀ (fs kvs : List (Str × Json)) (k : Str),
    hasKey kvs k = true →
    getVal (applyFields kvs fs) k = getVal kvs k ∧ hasKey (applyFields kvs fs) k = true := by
  intro fs
  induction fs with
  | nil => intro kvs k h; rw [applyFields]; exact ⟨rfl, h⟩
  | cons p t ih =>
    intro kvs k h
    obtain ⟨k0, v0⟩ := p
    rw [applyFields]
    by_cases h0 : hasKey kvs k0 = true
    · rw [if_pos h0]; exact ih kvs k h
    · rw [if_neg h0]
      obtain ⟨v, hv⟩ := getVal_some_of_hasKey h
      have h1 : hasKey (kvs ++ [(k0, v0)]) k = true := by
        rw [hasKey_append, h]; rfl
      have h2 := ih (kvs ++ [(k0, v0)]) k h1
      rw [h2.1, getVal_append_some _ hv, hv]
      exact ⟨rfl, h2.2⟩

theorem applyFields_keys_not_mem : ∀ (fs kvs : List (Str × Json)) (k : Str),
    k ∉ fs.map Prod.fst →
    getVal (applyFields kvs fs) k = getVal kvs k ∧
      hasKey (applyFields kvs fs) k = hasKey kvs k := by
  intro fs
  induction fs with
  | nil => intro kvs k _; rw [applyFields]; exact ⟨rfl, rfl⟩
  | cons p t ih =>
    intro kvs k hk
    obtain ⟨k0, v0⟩ := p
    simp only [List.map_cons, List.mem_cons, not_or] at hk
    have hne : k0 ≠ k := fun h => hk.1 h.symm
    rw [applyFields]
    by_cases h0 : hasKey kvs k0 = true
    · rw [if_pos h0]; exact ih kvs k hk.2
    · rw [if_neg h0]
      have h2 := ih (kvs ++ [(k0, v0)]) k hk.2
      rw [h2.1, getVal_append_single_ne hne]
      refine ⟨rfl, ?_⟩
      rw [h2.2, hasKey_append]
      have h3 : hasKey [(k0, v0)] k = false := by simp [hasKey, hne]
      rw [h3, Bool.or_false]

theorem applyFields_absent_mem : ∀ (fs kvs : List (Str × Json)) (k : Str) (v : Json),
    hasKey kvs k = false → (fs.map Prod.fst).Nodup → (k, v) ∈ fs →
    getVal (applyFields kvs fs) k = some v := by
  intro fs
  induction fs with
  | nil => intro kvs k v _ _ hmem; exact absurd hmem (by simp)
  | cons p t ih =>
    intro kvs k v habs hnd hmem
    obtain ⟨k0, v0⟩ := p
    simp only [List.map_cons, List.nodup_cons] at hnd
    rw [List.mem_cons] at hmem
    rcases hmem with hmem | hmem
    · rw [Prod.mk.injEq] at hmem
      obtain ⟨hk, hv⟩ := hmem
      subst hk
      subst hv
      rw [applyFields, if_neg (by rw [habs]; exact fun h => nomatch h)]
      have hg : getVal (kvs ++ [(k, v)]) k = some v := by
        rw [getVal_append_none _ (getVal_none_of_hasKey_false habs), getVal, if_pos rfl]
      exact (applyFields_hasKey_stable t _ k (hasKey_of_getVal_some hg)).1.trans hg
    · have hkmem : k ∈ t.map Prod.fst := List.mem_map.mpr ⟨(k, v), hmem, rfl⟩
      have hne : k0 ≠ k := fun h => hnd.1 (h ▸ hkmem)
      rw [applyFields]
      by_cases h0 : hasKey kvs k0 = true
      · rw [if_pos h0]; exact ih kvs k v habs hnd.2 hmem
      · rw [if_neg h0]
        have habs2 : hasKey (kvs ++ [(k0, v0)]) k = false := by
          rw [hasKey_append, habs]
          have h3 : hasKey [(k0, v0)] k = false := by simp [hasKey, hne]
          rw [h3]
          rfl
        exact ih _ k v habs2 hnd.2 hmem

/-! ### Backfill behaviour on non-object parsed values -/

theorem backfillOne_nonObj (j : Json) (k : Str) (v : Json) (h : isObj j = false) :
    backfillOne j k v = if memNonObj j k then .ok j else .error () := by
  cases j with
  | obj kvs => rw [isObj] at h; exact absurd h (by simp)
  | arr xs => rw [backfillOne, pyContains, memNonObj]; cases xs.any _ <;> simp [pySetItem]
  | str s => rw [backfillOne, pyContains, memNonObj]; cases isSubstrL k s <;> simp [pySetItem]
  | null => simp [backfillOne, pyContains, memNonObj]
  | bool b => simp [backfillOne, pyContains, memNonObj]
  | num n => simp [backfillOne, pyContains, memNonObj]

theorem backfill_nonObj : ∀ (fs : List (Str × Json)) (j : Json), isObj j = false →
    backfill j fs = if fs.all (fun p => memNonObj j p.1) then .ok j else .error () := by
  intro fs
  induction fs with
  | nil => intro j _; rw [backfill]; simp
  | cons p t ih =>
    intro j hj
    obtain ⟨k, v⟩ := p
    rw [backfill, backfillOne_nonObj j k v hj]
    cases hm : memNonObj j k with
    | true => simp only [if_pos trivial, ih j hj, List.all_cons, hm, Bool.true_and]
    | false => simp [hm]

/-! ### The three outcomes of reply processing -/

theorem processReply_parse_none {reply : Str} {st en : Int} {sf : Str}
    (h : parse (cleanOutput reply) = none) :
    processReply reply st en sf = .savedRaw (cleanOutput reply) := by
  rw [processReply, h]

theorem processReply_parse_obj {reply : Str} {st en : Int} {sf : Str}
    {kvs : List (Str × Json)} (h : parse (cleanOutput reply) = some (.obj kvs)) :
    processReply reply st en sf = .savedJson (.obj (applyFields kvs (reqFields st en sf))) := by
  rw [processReply, h]
  simp only [backfill_obj]

theorem processReply_parse_nonObj {reply : Str} {st en : Int} {sf : Str} {j : Json}
    (h : parse (cleanOutput reply) = some j) (hj : isObj j = false) :
    processReply reply st en sf =
      (if (reqFields st en sf).all (fun p => memNonObj j p.1) then .savedJson j
       else .failed) := by
  rw [processReply, h]
  simp only [backfill_nonObj _ j hj]
  cases hall : (reqFields st en sf).all (fun p => memNonObj j p.1) <;> simp [hall]

theorem processReply_failed_nonObj {reply : Str} {st en : Int} {sf : Str}
    (h : processReply reply st en sf = .failed) :
    ∃ j, parse (cleanOutput reply) = some j ∧ isObj j = false := by
  rw [processReply] at h
  cases hp : parse (cleanOutput reply) with
  | none => rw [hp] at h; exact absurd h (by simp)
  | some j =>
    rw [hp] at h
    simp only [] at h
    refine ⟨j, rfl, ?_⟩
    cases j with
    | obj kvs =>
      rw [backfill_obj] at h
      exact absurd h (by simp)
    | null => rfl
    | bool b => rfl
    | num n => rfl
    | str s => rfl
    | arr xs => rfl

/-! ### Batch-coordinator lemmas -/

theorem runItem_skip {s : BatchState} {t : Target} (ev : ItemEvent)
    (h : jsonName t ∈ s.files) : runItem s t ev = s := by
  rw [runItem.eq_def, if_pos h]

theorem runItem_not_skipped {s : BatchState} {t : Target} (ev : ItemEvent)
    (h : jsonName t ∉ s.files) :
    (runItem s t ev).files = s.files ++ itemArtifacts t ev ∧
      (runItem s t ev).invoked =
        (match ev with
         | .readFail => s.invoked
         | _ => s.invoked ++ [identOf t]) := by
  rw [runItem.eq_def, if_neg h]
  cases ev with
  | readFail => rw [itemArtifacts]; simp
  | callFail => rw [itemArtifacts]; simp
  | reply text st en =>
    rw [itemArtifacts]
    simp only []
    cases hp : processReply text st en t.solFile <;> simp

theorem runItem_files_sub (s : BatchState) (t : Target) (ev : ItemEvent) :
    ∃ art, (runItem s t ev).files = s.files ++ art ∧
      ∀ x ∈ art, x = jsonName t ∨ x = rawName t := by
  by_cases h : jsonName t ∈ s.files
  · exact ⟨[], by rw [runItem_skip ev h]; simp, by simp⟩
  · refine ⟨itemArtifacts t ev, (runItem_not_skipped ev h).1, ?_⟩
    intro x hx
    cases ev with
    | readFail => rw [itemArtifacts] at hx; exact absurd hx (by simp)
    | callFail => rw [itemArtifacts] at hx; exact absurd hx (by simp)
    | reply text st en =>
      rw [itemArtifacts] at hx
      cases hp : processReply text st en t.solFile <;> rw [hp] at hx <;> simp at hx
      · exact Or.inl hx
      · exact Or.inr hx

theorem runBatch_files_sub : ∀ (items : List (Target × ItemEvent)) (s : BatchState),
    ∃ extra, (runBatch s items).files = s.files ++ extra ∧
      ∀ x ∈ extra, ∃ p ∈ items, x = jsonName p.1 ∨ x = rawName p.1 := by
  intro items
  induction items with
  | nil => intro s; exact ⟨[], by rw [runBatch]; simp, by simp⟩
  | cons q rest ih =>
    intro s
    obtain ⟨art, hart, hsub⟩ := runItem_files_sub s q.1 q.2
    obtain ⟨extra, hextra, hsub2⟩ := ih (runItem s q.1 q.2)
    refine ⟨art ++ extra, ?_, ?_⟩
    · rw [runBatch] at hextra ⊢
      simp only [List.foldl_cons]
      rw [hextra, hart, List.append_assoc]
    · intro x hx
      rw [List.mem_append] at hx
      rcases hx with hx | hx
      · exact ⟨q, by simp, hsub x hx⟩
      · obtain ⟨p, hp, hor⟩ := hsub2 x hx
        exact ⟨p, by simp [hp], hor⟩

theorem append_ne_of_ne {a b : Str} (suf : Str) (h : a ≠ b) : a ++ suf ≠ b ++ suf :=
  fun hab => h (List.append_cancel_right hab)

theorem jsonName_ne_rawName (t1 t2 : Target) : jsonName t1 ≠ rawName t2 := by
  intro h
  have h2 := congrArg List.reverse h
  rw [jsonName, rawName, List.reverse_append, List.reverse_append] at h2
  have e1 : jsonExt.reverse = ['n', 'o', 's', 'j', '.'] := by decide
  have e2 : rawExt.reverse = ['t', 'x', 't', '.', 'w', 'a', 'r', '_'] := by decide
  rw [e1, e2] at h2
  simp at h2

theorem jsonName_inj {t1 t2 : Target} (h : identOf t1 ≠ identOf t2) :
    jsonName t1 ≠ jsonName t2 := by
  intro hab
  rw [jsonName, jsonName] at hab
  exact h (List.append_cancel_right hab)

theorem rawName_inj {t1 t2 : Target} (h : identOf t1 ≠ identOf t2) :
    rawName t1 ≠ rawName t2 := by
  intro hab
  rw [rawName, rawName] at hab
  exact h (List.append_cancel_right hab)

theorem runBatch_files_spec : ∀ (items : List (Target × ItemEvent)) (s : BatchState),
    (∀ p ∈ items, jsonName p.1 ∉ s.files ∧ rawName p.1 ∉ s.files) →
    ((items.map (fun p => identOf p.1)).Nodup) →
    ∀ p ∈ items,
      ((jsonName p.1 ∈ (runBatch s items).files) ↔ jsonName p.1 ∈ itemArtifacts p.1 p.2) ∧
      ((rawName p.1 ∈ (runBatch s items).files) ↔ rawName p.1 ∈ itemArtifacts p.1 p.2) := by
  intro items
  induction items with
  | nil => intro s _ _ p hp; exact absurd hp (by simp)
  | cons q rest ih =>
    intro s hallow hnd p hp
    have hqjson : jsonName q.1 ∉ s.files := (hallow q (by simp)).1
    have hs1 : (runItem s q.1 q.2).files = s.files ++ itemArtifacts q.1 q.2 :=
      (runItem_not_skipped q.2 hqjson).1
    simp only [List.map_cons, List.nodup_cons] at hnd
    have hbatch : runBatch s (q :: rest) = runBatch (runItem s q.1 q.2) rest := by
      rw [runBatch, runBatch, List.foldl_cons]
    rw [List.mem_cons] at hp
    rcases hp with hp | hp
    · subst hp
      obtain ⟨extra, hextra, hsub⟩ := runBatch_files_sub rest (runItem s p.1 p.2)
      have hnotextra_j : jsonName p.1 ∉ extra := by
        intro hx
        obtain ⟨p2, hp2, hor⟩ := hsub _ hx
        have hne : identOf p.1 ≠ identOf p2.1 := by
          intro he
          exact hnd.1 (by
            rw [he]
            exact List.mem_map.mpr ⟨p2, hp2, rfl⟩)
        rcases hor with hor | hor
        · exact jsonName_inj hne hor
        · exact jsonName_ne_rawName p.1 p2.1 hor
      have hnotextra_r : rawName p.1 ∉ extra := by
        intro hx
        obtain ⟨p2, hp2, hor⟩ := hsub _ hx
        have hne : identOf p.1 ≠ identOf p2.1 := by
          intro he
          exact hnd.1 (by
            rw [he]
            exact List.mem_map.mpr ⟨p2, hp2, rfl⟩)
        rcases hor with hor | hor
        · exact (jsonName_ne_rawName p2.1 p.1 hor.symm).elim
        · exact rawName_inj hne hor
      rw [hbatch, hextra, hs1]
      constructor
      · simp only [List.mem_append]
        constructor
        · intro hmem
          rcases hmem with (hmem | hmem) | hmem
          · exact absurd hmem hqjson
          · exact hmem
          · exact absurd hmem hnotextra_j
        · intro hmem
          exact Or.inl (Or.inr hmem)
      · simp only [List.mem_append]
        constructor
        · intro hmem
          rcases hmem with (hmem | hmem) | hmem
          · exact absurd hmem (hallow p (by simp)).2
          · exact hmem
          · exact absurd hmem hnotextra_r
        · intro hmem
          exact Or.inl (Or.inr hmem)
    · have hallow2 : ∀ p2 ∈ rest, jsonName p2.1 ∉ (runItem s q.1 q.2).files ∧
          rawName p2.1 ∉ (runItem s q.1 q.2).files := by
        intro p2 hp2
        have hne : identOf q.1 ≠ identOf p2.1 := by
          intro he
          exact hnd.1 (by
            rw [he]
            exact List.mem_map.mpr ⟨p2, hp2, rfl⟩)
        have hsub := (runItem_files_sub s q.1 q.2).choose_spec
        rw [hs1]
        have hq : ∀ x ∈ itemArtifacts q.1 q.2, x = jsonName q.1 ∨ x = rawName q.1 := by
          intro x hx
          obtain ⟨art, hart, hsubq⟩ := runItem_files_sub s q.1 q.2
          rw [hs1] at hart
          have hae : art = itemArtifacts q.1 q.2 := List.append_cancel_left hart.symm
          exact hsubq x (by rw [hae]; exact hx)
        constructor
        · rw [List.mem_append]
          rintro (hm | hm)
          · exact (hallow p2 (by simp [hp2])).1 hm
          · rcases hq _ hm with he | he
            · exact jsonName_inj (Ne.symm hne) he
            · exact jsonName_ne_rawName p2.1 q.1 he
        · rw [List.mem_append]
          rintro (hm | hm)
          · exact (hallow p2 (by simp [hp2])).2 hm
          · rcases hq _ hm with he | he
            · exact (jsonName_ne_rawName q.1 p2.1 he.symm).elim
            · exact rawName_inj (Ne.symm hne) he
      rw [hbatch]
      exact ih (runItem s q.1 q.2) hallow2 hnd.2 p hp

/-! ### Corpus-matcher lemmas -/

theorem identOf_mk (cn f : Str) : identOf (Target.mk cn f) = idOfName f := rfl

theorem matchedTargets_eq_filter (input : List CatEntry) (refs : List Str) :
    matchedTargets input refs =
      (candidateFiles input).filter (fun t => decide (identOf t ∈ refs)) := by
  rw [matchedTargets, candidateFiles, List.filter_flatten, List.map_map]
  congr 1
  apply List.map_congr_left
  intro c _
  simp only [Function.comp_apply, List.filter_map]
  congr 1
  rw [List.filter_filter]
  apply List.filter_congr
  intro f _
  simp only [Function.comp_apply, identOf_mk]
  rw [Bool.and_comm]

theorem matchedTargets_unrelated (pre post : List CatEntry) (cn : Str)
    (files : List Str) (f : Str) (refs : List Str) (h : idOfName f ∉ refs) :
    matchedTargets (pre ++ CatEntry.mk cn true (files ++ [f]) :: post) refs =
      matchedTargets (pre ++ CatEntry.mk cn true files :: post) refs := by
  rw [matchedTargets, matchedTargets]
  have hf : List.filter (fun g => endsWithSol g && decide (idOfName g ∈ refs)) (files ++ [f]) =
      List.filter (fun g => endsWithSol g && decide (idOfName g ∈ refs)) files := by
    rw [List.filter_append]
    have h1 : List.filter (fun g => endsWithSol g && decide (idOfName g ∈ refs)) [f] = [] := by
      simp [List.filter_cons, h]
    rw [h1, List.append_nil]
  simp [List.filter_append, List.filter_cons, hf]

theorem matchedTargets_nondir (pre post : List CatEntry) (cn : Str)
    (files : List Str) (refs : List Str) :
    matchedTargets (pre ++ CatEntry.mk cn false files :: post) refs =
      matchedTargets (pre ++ post) refs := by
  rw [matchedTargets, matchedTargets]
  congr 2
  simp [List.filter_append, List.filter_cons]

theorem refNames_nondir (pre post : List DirEntry) (n : Str) :
    refNames (pre ++ DirEntry.mk n false :: post) = refNames (pre ++ post) := by
  rw [refNames, refNames]
  simp [List.filter_append, List.filter_cons]

/-! ### Remaining helper lemmas for the claims -/

theorem last_not_ps_of_rstrip_eq {s : Str} (h : rstrip s = s) (hne : s ≠ []) :
    ∃ a c, s = a ++ [c] ∧ isPySpace c = false := by
  have hrne : s.reverse ≠ [] := fun h2 => hne (List.reverse_eq_nil_iff.mp h2)
  obtain ⟨c, t, hct⟩ := List.exists_cons_of_ne_nil hrne
  refine ⟨t.reverse, c, ?_, ?_⟩
  · have := congrArg List.reverse hct
    rw [List.reverse_reverse] at this
    rw [this, List.reverse_cons]
  · cases hps : isPySpace c with
    | false => rfl
    | true =>
      exfalso
      have hlen := congrArg List.length h
      rw [rstrip, hct] at hlen
      rw [List.dropWhile_cons, hps] at hlen
      simp only [if_pos trivial, List.length_reverse] at hlen
      have hle : (t.dropWhile isPySpace).length ≤ t.length :=
        (List.dropWhile_sublist isPySpace).length_le
      have hlen2 : s.length = t.length + 1 := by
        have := congrArg List.length hct
        simp only [List.length_reverse, List.length_cons] at this
        exact this
      omega

theorem runItem_failed_state {s : BatchState} {t : Target} {text : Str} {st en : Int}
    (h : jsonName t ∉ s.files) (hf : processReply text st en t.solFile = .failed) :
    (runItem s t (.reply text st en)).files = s.files ∧
      (runItem s t (.reply text st en)).processedCount = s.processedCount ∧
      (runItem s t (.reply text st en)).invoked = s.invoked ++ [identOf t] := by
  rw [runItem.eq_def, if_neg h]
  simp only []
  rw [hf]
  simp

/-! ### C1 -/

/-- C1: the claim says the backfilled `contract` value equals the
identifier without the `.sol` extension.  The source (line 236) assigns
`sol_file`, the file name with its extension: for `Reentrancy1.sol` the
persisted `contract` field is `"Reentrancy1.sol"`, not `"Reentrancy1"`. -/
theorem c1_counterexample :
    processReply ['\x7b', '\x7d'] 5 9 ("Reentrancy1.sol".data) =
      .savedJson (.obj [(kStart, .num 5), (kEnd, .num 9), (kDuration, .num 4),
        (kContract, .str ("Reentrancy1.sol".data)), (kTool, .str mythrilStr)]) ∧
    ("Reentrancy1.sol".data : Str) ≠ "Reentrancy1".data :=
  ⟨rfl, by decide⟩

/-- C1 (amended): when the parsed model reply lacks a `contract` field,
the backfilled `contract` value in the persisted report equals the
target's source file name itself, `.sol` extension included. -/
theorem c1_theorem : ∀ (reply : Str) (st en : Int) (sf : Str) (kvs : List (Str × Json)),
    parse (cleanOutput reply) = some (.obj kvs) → hasKey kvs kContract = false →
    ∃ kvs2, processReply reply st en sf = .savedJson (.obj kvs2) ∧
      getVal kvs2 kContract = some (.str sf) := by
  intro reply st en sf kvs hp hk
  refine ⟨applyFields kvs (reqFields st en sf), processReply_parse_obj hp, ?_⟩
  apply applyFields_absent_mem _ _ _ _ hk
  · simp only [reqFields, List.map_cons, List.map_nil]
    decide
  · simp [reqFields]

/-- C1 witness: a parsed reply `\x7b\x7d` for file `A.sol` is persisted
with `contract = "A.sol"`. -/
theorem c1_witness :
    ∃ kvs2, processReply ['\x7b', '\x7d'] 0 2 ("A.sol".data) = .savedJson (.obj kvs2) ∧
      getVal kvs2 kContract = some (.str ("A.sol".data)) :=
  c1_theorem ['\x7b', '\x7d'] 0 2 ("A.sol".data) [] rfl rfl

/-! ### C2 -/

/-- C2: the claim says every target reaching the Requested state writes
exactly one artifact — never neither.  A reply whose cleaned text parses
as the empty array reaches the model call, raises a `TypeError` in the
backfill, and writes no artifact at all: the state after the item keeps
an empty output directory (and the identifier was invoked, so the item
was not skipped). -/
theorem c2_counterexample :
    (runItem (BatchState.mk [] [] 0) (Target.mk ("c".data) ("A.sol".data))
        (.reply ("[]".data) 0 1)).files = [] ∧
    (runItem (BatchState.mk [] [] 0) (Target.mk ("c".data) ("A.sol".data))
        (.reply ("[]".data) 0 1)).invoked = [identOf (Target.mk ("c".data) ("A.sol".data))] :=
  ⟨rfl, rfl⟩

/-- C2 (amended): a reply that fails to parse always yields exactly the
raw fallback (no exception escapes the normalizer); a reply parsing to an
object always yields exactly the structured report; the only way neither
is written is a backfill `TypeError`, which can happen only when the
parsed top-level value is not an object. -/
theorem c2_theorem : ∀ (reply : Str) (st en : Int) (sf : Str),
    (parse (cleanOutput reply) = none →
      processReply reply st en sf = .savedRaw (cleanOutput reply)) ∧
    (∀ kvs, parse (cleanOutput reply) = some (.obj kvs) →
      ∃ j, processReply reply st en sf = .savedJson j) ∧
    (processReply reply st en sf = .failed →
      ∃ j, parse (cleanOutput reply) = some j ∧ isObj j = false) := by
  intro reply st en sf
  refine ⟨fun h => processReply_parse_none h, fun kvs h => ⟨_, processReply_parse_obj h⟩,
    fun h => processReply_failed_nonObj h⟩

/-- C2 witness: the unparsable reply `not json at all` degrades to the
raw fallback holding exactly the cleaned text. -/
theorem c2_witness :
    processReply ("not json at all".data) 0 1 ("A.sol".data) =
      .savedRaw (cleanOutput ("not json at all".data)) :=
  (c2_theorem ("not json at all".data) 0 1 ("A.sol".data)).1 rfl

/-! ### C3 -/

/-- C3: the claim says every valid-JSON non-object reply raises a
`TypeError` during backfill, so that nothing is persisted.  The array
holding exactly the five required field names passes every membership
test (`"start" in [...]` is element membership), so no assignment runs,
no `TypeError` is raised, and the array itself is persisted as the
`.json` artifact. -/
theorem c3_counterexample :
    processReply ("[\"start\",\"end\",\"duration\",\"contract\",\"tool\"]".data) 0 1
        ("A.sol".data) =
      .savedJson (.arr [.str kStart, .str kEnd, .str kDuration, .str kContract,
        .str kTool]) ∧
    (runItem (BatchState.mk [] [] 0) (Target.mk ("c".data) ("A.sol".data))
        (.reply ("[\"start\",\"end\",\"duration\",\"contract\",\"tool\"]".data) 0 1)).files =
      [jsonName (Target.mk ("c".data) ("A.sol".data))] :=
  ⟨rfl, rfl⟩

/-- C3 (amended): a parsed non-object value raises a `TypeError` during
backfill — caught at the item boundary, persisting nothing and not
counting as processed while the batch continues — exactly when some
required field name fails the language's membership test on it (always
for numbers, booleans and null; for arrays and strings only when some
field name is not an element, resp. substring); a non-object value that
passes all five membership tests is persisted unchanged as the `.json`
artifact. -/
theorem c3_theorem : ∀ (reply : Str) (st en : Int) (t : Target) (s : BatchState) (j : Json),
    parse (cleanOutput reply) = some j → isObj j = false →
    ((reqFields st en t.solFile).all (fun p => memNonObj j p.1) = false →
      processReply reply st en t.solFile = .failed ∧
      (jsonName t ∉ s.files →
        (runItem s t (.reply reply st en)).files = s.files ∧
        (runItem s t (.reply reply st en)).processedCount = s.processedCount)) ∧
    ((reqFields st en t.solFile).all (fun p => memNonObj j p.1) = true →
      processReply reply st en t.solFile = .savedJson j) := by
  intro reply st en t s j hp hobj
  constructor
  · intro hall
    have hf : processReply reply st en t.solFile = .failed := by
      rw [processReply_parse_nonObj hp hobj, hall]
      simp
    refine ⟨hf, fun hns => ?_⟩
    have h3 := runItem_failed_state hns hf
    exact ⟨h3.1, h3.2.1⟩
  · intro hall
    rw [processReply_parse_nonObj hp hobj, hall]
    simp

/-- C3 witness: the reply `"ok"` parses as a string, fails the
membership test for `start`, and hard-fails without artifacts. -/
theorem c3_witness :
    processReply ("\"ok\"".data) 0 1 (Target.mk ("c".data) ("A.sol".data)).solFile =
      .failed ∧
    (runItem (BatchState.mk [] [] 0) (Target.mk ("c".data) ("A.sol".data))
        (.reply ("\"ok\"".data) 0 1)).files = [] :=
  by
    have h := (c3_theorem ("\"ok\"".data) 0 1 (Target.mk ("c".data) ("A.sol".data))
      (BatchState.mk [] [] 0) (.str ['o', 'k']) rfl rfl).1 rfl
    exact ⟨h.1, (h.2 (by decide)).1⟩

/-! ### C4 -/

/-- C4: the claim says the nested `analysis` fields are backfilled too,
so a parsed reply of `\x7b\x7d` yields a persisted report containing an
`analysis` field.  The source backfills only the five top-level fields:
for the parsed reply `\x7b\x7d` the persisted report is exactly the five
backfilled fields and holds no `analysis` key at all. -/
theorem c4_counterexample :
    processReply ['\x7b', '\x7d'] 5 9 ("A.sol".data) =
      .savedJson (.obj [(kStart, .num 5), (kEnd, .num 9), (kDuration, .num 4),
        (kContract, .str ("A.sol".data)), (kTool, .str mythrilStr)]) ∧
    hasKey [(kStart, .num 5), (kEnd, .num 9), (kDuration, .num 4),
        (kContract, .str ("A.sol".data)), (kTool, .str mythrilStr)] ("analysis".data) =
      false :=
  ⟨rfl, rfl⟩

/-- C4 (amended): for every parsed object reply, the persisted report
always defines the five top-level fields `start`, `end`, `duration`,
`contract` and `tool` (backfilled when absent, never left absent), and
defines a key outside these five — `analysis` included — exactly when the
model's parsed reply already defined it: nested fields are not
backfilled. -/
theorem c4_theorem : ∀ (reply : Str) (st en : Int) (sf : Str) (kvs : List (Str × Json)),
    parse (cleanOutput reply) = some (.obj kvs) →
    ∃ kvs2, processReply reply st en sf = .savedJson (.obj kvs2) ∧
      hasKey kvs2 kStart = true ∧ hasKey kvs2 kEnd = true ∧
      hasKey kvs2 kDuration = true ∧ hasKey kvs2 kContract = true ∧
      hasKey kvs2 kTool = true ∧
      (∀ k, k ∉ (reqFields st en sf).map Prod.fst → hasKey kvs2 k = hasKey kvs k) := by
  intro reply st en sf kvs hp
  have hnodup : ((reqFields st en sf).map Prod.fst).Nodup := by
    simp only [reqFields, List.map_cons, List.map_nil]
    decide
  have hpres : ∀ k v, (k, v) ∈ reqFields st en sf →
      hasKey (applyFields kvs (reqFields st en sf)) k = true := by
    intro k v hm
    cases hk : hasKey kvs k with
    | true => exact (applyFields_hasKey_stable _ kvs k hk).2
    | false =>
      exact hasKey_of_getVal_some (applyFields_absent_mem _ kvs k v hk hnodup hm)
  refine ⟨applyFields kvs (reqFields st en sf), processReply_parse_obj hp,
    hpres kStart (.num st) (by simp [reqFields]),
    hpres kEnd (.num en) (by simp [reqFields]),
    hpres kDuration (.num (en - st)) (by simp [reqFields]),
    hpres kContract (.str sf) (by simp [reqFields]),
    hpres kTool (.str mythrilStr) (by simp [reqFields]),
    fun k hk => (applyFields_keys_not_mem _ kvs k hk).2⟩

/-- C4 witness: the parsed reply `\x7b\x7d` yields a report defining all
five required fields and, the empty reply defining nothing else, no
`analysis` key. -/
theorem c4_witness :
    ∃ kvs2, processReply ['\x7b', '\x7d'] 0 2 ("A.sol".data) = .savedJson (.obj kvs2) ∧
      hasKey kvs2 kStart = true ∧ hasKey kvs2 kEnd = true ∧
      hasKey kvs2 kDuration = true ∧ hasKey kvs2 kContract = true ∧
      hasKey kvs2 kTool = true ∧
      (∀ k, k ∉ (reqFields 0 2 ("A.sol".data)).map Prod.fst →
        hasKey kvs2 k = hasKey ([] : List (Str × Json)) k) :=
  c4_theorem ['\x7b', '\x7d'] 0 2 ("A.sol".data) [] rfl

/-! ### C5 -/

/-- C5: the claim says the two opener-stripping steps are mutually
exclusive, so an input starting with the tagged opener immediately
followed by a bare fence keeps the bare fence.  The source uses two
consecutive `if` statements: for the reply starting with the tagged
opener followed by a bare fence, both are stripped — the result is
`[1]`, not the bare fence followed by `[1]`. -/
theorem c5_counterexample :
    cleanOutput (fenceJson ++ (fence ++ ['[', '1', ']'])) = ['[', '1', ']'] ∧
    (['[', '1', ']'] : Str) ≠ fence ++ ['[', '1', ']'] :=
  ⟨rfl, by decide⟩

/-- C5 (amended): the two opener-stripping steps are consecutive, not
exclusive: on a reply that is the tagged opener, immediately a bare
fence, then payload text with no surrounding whitespace, both openers are
removed and only the trailing-fence step and final strip apply to the
payload. -/
theorem c5_theorem : ∀ rest : Str, lstrip rest = rest → rstrip rest = rest →
    cleanOutput (fenceJson ++ (fence ++ rest)) =
      (if fence.isSuffixOf rest = true then strip (rest.take (rest.length - 3))
       else rest) := by
  intro rest hl hr
  by_cases hnil : rest = []
  · subst hnil
    rfl
  · have h1 : strip (fenceJson ++ (fence ++ rest)) = fenceJson ++ (fence ++ rest) := by
      obtain ⟨a, c, hac, hc⟩ := last_not_ps_of_rstrip_eq hr hnil
      have hshape : fenceJson ++ (fence ++ rest) = (fenceJson ++ (fence ++ a)) ++ [c] := by
        rw [hac]
        simp
      have hlx : lstrip (fenceJson ++ (fence ++ rest)) = fenceJson ++ (fence ++ rest) := by
        rw [fenceJson]
        simp only [List.cons_append]
        exact lstrip_cons_nps (by decide)
      rw [strip, hlx, hshape, rstrip_append_nps hc]
    have h2 : fenceJson.isPrefixOf (fenceJson ++ (fence ++ rest)) = true :=
      List.isPrefixOf_iff_prefix.mpr (List.prefix_append _ _)
    have h3 : (fenceJson ++ (fence ++ rest)).drop 7 = fence ++ rest := by
      rw [show (7 : Nat) = fenceJson.length from rfl, List.drop_left]
    have h4 : fence.isPrefixOf (fence ++ rest) = true :=
      List.isPrefixOf_iff_prefix.mpr (List.prefix_append _ _)
    have h5 : (fence ++ rest).drop 3 = rest := by
      rw [show (3 : Nat) = fence.length from rfl, List.drop_left]
    rw [cleanOutput]
    simp only [h1, h2, h3, h4, h5, if_true, ite_true]
    by_cases hsf : fence.isSuffixOf rest = true
    · rw [if_pos hsf, if_pos hsf]
    · rw [if_neg hsf, if_neg hsf, strip, hl, hr]

/-- C5 witness: at the payload `[1]` both openers are removed and the
payload survives unchanged. -/
theorem c5_witness :
    cleanOutput (fenceJson ++ (fence ++ ['[', '1', ']'])) =
      (if fence.isSuffixOf ['[', '1', ']'] = true then
        strip ((['[', '1', ']'] : Str).take ((['[', '1', ']'] : Str).length - 3))
       else ['[', '1', ']']) :=
  c5_theorem ['[', '1', ']'] rfl rfl

/-! ### C6 -/

/-- C6: fencing roundtrip — wrapping any structured document's serialised
text in the tagged or bare fenced block and running it through the
normaliser parses back to a document deep-equal to the original, and the
raw-fallback path is never taken. -/
theorem c6_theorem : ∀ v : Json, noDupKeys v = true →
    parse (cleanOutput (wrapTagged v)) = some v ∧
    parse (cleanOutput (wrapBare v)) = some v ∧
    (∀ (st en : Int) (sf text : Str), processReply (wrapTagged v) st en sf ≠ .savedRaw text) ∧
    (∀ (st en : Int) (sf text : Str), processReply (wrapBare v) st en sf ≠ .savedRaw text) := by
  intro v h
  have h1 : parse (cleanOutput (wrapTagged v)) = some v := by
    rw [cleanOutput_wrapTagged]
    exact parse_serialize v h
  have h2 : parse (cleanOutput (wrapBare v)) = some v := by
    rw [cleanOutput_wrapBare]
    exact parse_serialize v h
  refine ⟨h1, h2, ?_, ?_⟩
  · intro st en sf text hcontra
    rw [processReply, h1] at hcontra
    simp only [] at hcontra
    cases hb : backfill v (reqFields st en sf) <;> rw [hb] at hcontra <;> simp at hcontra
  · intro st en sf text hcontra
    rw [processReply, h2] at hcontra
    simp only [] at hcontra
    cases hb : backfill v (reqFields st en sf) <;> rw [hb] at hcontra <;> simp at hcontra

/-- C6 witness: the schema-shaped document with an `analysis` object and
empty `issues` array roundtrips through the tagged fenced wrapping. -/
theorem c6_witness :
    noDupKeys (.obj [("analysis".data, .obj [("success".data, .bool true),
      ("error".data, .null), ("issues".data, .arr [])])]) = true ∧
    parse (cleanOutput (wrapTagged (.obj [("analysis".data, .obj [("success".data, .bool true),
      ("error".data, .null), ("issues".data, .arr [])])]))) =
      some (.obj [("analysis".data, .obj [("success".data, .bool true),
        ("error".data, .null), ("issues".data, .arr [])])]) := by
  have hnd : noDupKeys (.obj [("analysis".data, .obj [("success".data, .bool true),
      ("error".data, .null), ("issues".data, .arr [])])]) = true := by
    simp only [noDupKeys.eq_def, noDupKeysObj.eq_def, noDupKeysList.eq_def, keysNodup]
    decide
  exact ⟨hnd, (c6_theorem _ hnd).1⟩

/-! ### C7 -/

/-- C7: for each of the five fields, a field the parsed reply defines is
left untouched (a supplied `contract="X"` survives, whatever the
orchestrator knows); an absent field is set from the orchestrator-known
value, the backfilled `duration` being `end - start` of the recorded call
timestamps; and keys outside the five are never modified. -/
theorem c7_theorem : ∀ (reply : Str) (st en : Int) (sf : Str) (kvs : List (Str × Json)),
    parse (cleanOutput reply) = some (.obj kvs) →
    ∃ kvs2, processReply reply st en sf = .savedJson (.obj kvs2) ∧
      (∀ k v, (k, v) ∈ reqFields st en sf →
        (hasKey kvs k = true → getVal kvs2 k = getVal kvs k) ∧
        (hasKey kvs k = false → getVal kvs2 k = some v)) ∧
      getVal (reqFields st en sf) kDuration = some (.num (en - st)) ∧
      (∀ k, k ∉ (reqFields st en sf).map Prod.fst → getVal kvs2 k = getVal kvs k) := by
  intro reply st en sf kvs hp
  have hnodup : ((reqFields st en sf).map Prod.fst).Nodup := by
    simp only [reqFields, List.map_cons, List.map_nil]
    decide
  refine ⟨applyFields kvs (reqFields st en sf), processReply_parse_obj hp, ?_, rfl, ?_⟩
  · intro k v hm
    exact ⟨fun hk => (applyFields_hasKey_stable _ kvs k hk).1,
      fun hk => applyFields_absent_mem _ kvs k v hk hnodup hm⟩
  · intro k hk
    exact (applyFields_keys_not_mem _ kvs k hk).1

/-- C7 witness: a parsed reply supplying `contract="X"` keeps it when the
orchestrator knows file name `A.sol`, and the other fields are
backfilled. -/
theorem c7_witness :
    ∃ kvs2, processReply ['\x7b', '"', 'c', 'o', 'n', 't', 'r', 'a', 'c', 't', '"', ':',
        '"', 'X', '"', '\x7d'] 0 2 ("A.sol".data) = .savedJson (.obj kvs2) ∧
      (∀ k v, (k, v) ∈ reqFields 0 2 ("A.sol".data) →
        (hasKey [(kContract, .str ['X'])] k = true →
          getVal kvs2 k = getVal [(kContract, .str ['X'])] k) ∧
        (hasKey [(kContract, .str ['X'])] k = false → getVal kvs2 k = some v)) ∧
      getVal (reqFields 0 2 ("A.sol".data)) kDuration = some (.num (2 - 0)) ∧
      (∀ k, k ∉ (reqFields 0 2 ("A.sol".data)).map Prod.fst →
        getVal kvs2 k = getVal [(kContract, .str ['X'])] k) :=
  c7_theorem _ 0 2 ("A.sol".data) [(kContract, .str ['X'])] rfl

/-! ### C8 -/

/-- C8: the skip decision depends only on the existence of
`<identifier>.json`: when it exists the item is skipped with no model
invocation and no state change at all; when it does not — even if the
`_raw.txt` fallback exists — the model is invoked again. -/
theorem c8_theorem : ∀ (s : BatchState) (t : Target) (ev : ItemEvent) (text : Str)
    (st en : Int),
    (jsonName t ∈ s.files → runItem s t ev = s) ∧
    (jsonName t ∉ s.files →
      (runItem s t (.reply text st en)).invoked = s.invoked ++ [identOf t]) := by
  intro s t ev text st en
  exact ⟨fun h => runItem_skip ev h,
    fun h => (runItem_not_skipped (.reply text st en) h).2⟩

/-- C8 witness: a target whose `.json` artifact exists is skipped
unchanged; a target for which only the `_raw.txt` artifact exists is
reprocessed, invoking the model. -/
theorem c8_witness :
    runItem (BatchState.mk [jsonName (Target.mk ("c".data) ("A.sol".data))] [] 0)
        (Target.mk ("c".data) ("A.sol".data)) (.reply ("x".data) 0 1) =
      BatchState.mk [jsonName (Target.mk ("c".data) ("A.sol".data))] [] 0 ∧
    (runItem (BatchState.mk [rawName (Target.mk ("c".data) ("A.sol".data))] [] 0)
        (Target.mk ("c".data) ("A.sol".data)) (.reply ("x".data) 0 1)).invoked =
      [] ++ [identOf (Target.mk ("c".data) ("A.sol".data))] :=
  ⟨(c8_theorem (BatchState.mk [jsonName (Target.mk ("c".data) ("A.sol".data))] [] 0)
      (Target.mk ("c".data) ("A.sol".data)) (.reply ("x".data) 0 1) ("x".data) 0 1).1
      (by decide),
   (c8_theorem (BatchState.mk [rawName (Target.mk ("c".data) ("A.sol".data))] [] 0)
      (Target.mk ("c".data) ("A.sol".data)) (.reply ("x".data) 0 1) ("x".data) 0 1).2
      (by decide)⟩

/-! ### C9 -/

/-- C9: failure isolation — over a batch of targets with distinct
identifiers starting from an empty output directory, every item whose
reply completes (parse success on an object, or parse failure) produces
its completed artifact in the final state, while an item that raises
anywhere (source read, model call, or backfill `TypeError`) persists
nothing; the batch still processes every other item. -/
theorem c9_theorem : ∀ (items : List (Target × ItemEvent)),
    ((items.map (fun p => identOf p.1)).Nodup) →
    ∀ p ∈ items,
      ((∃ text st en, p.2 = .reply text st en ∧
          processReply text st en p.1.solFile ≠ .failed) →
        (jsonName p.1 ∈ (runBatch (BatchState.mk [] [] 0) items).files ∨
         rawName p.1 ∈ (runBatch (BatchState.mk [] [] 0) items).files)) ∧
      ((p.2 = .readFail ∨ p.2 = .callFail ∨ (∃ text st en, p.2 = .reply text st en ∧
          processReply text st en p.1.solFile = .failed)) →
        (jsonName p.1 ∉ (runBatch (BatchState.mk [] [] 0) items).files ∧
         rawName p.1 ∉ (runBatch (BatchState.mk [] [] 0) items).files)) := by
  intro items hnd p hp
  have hspec := runBatch_files_spec items (BatchState.mk [] [] 0)
    (fun p2 _ => ⟨by simp, by simp⟩) hnd p hp
  constructor
  · rintro ⟨text, st, en, hev, hnf⟩
    rw [hev, itemArtifacts] at hspec
    cases hpr : processReply text st en p.1.solFile with
    | savedJson j =>
      rw [hpr] at hspec
      exact Or.inl (hspec.1.mpr (by simp))
    | savedRaw tx =>
      rw [hpr] at hspec
      exact Or.inr (hspec.2.mpr (by simp))
    | failed => exact absurd hpr hnf
  · rintro (hev | hev | ⟨text, st, en, hev, hfail⟩) <;> rw [hev, itemArtifacts] at hspec
    · simp only [List.not_mem_nil, iff_false] at hspec
      exact hspec
    · simp only [List.not_mem_nil, iff_false] at hspec
      exact hspec
    · rw [hfail] at hspec
      simp only [List.not_mem_nil, iff_false] at hspec
      exact hspec

/-- C9 witness: in a three-item batch where the middle item's model call
raises, a completed item still produces its artifact and the failing one
persists nothing. -/
theorem c9_witness :
    (jsonName batch3A ∈ (runBatch (BatchState.mk [] [] 0) batch3).files ∨
     rawName batch3A ∈ (runBatch (BatchState.mk [] [] 0) batch3).files) ∧
    (jsonName batch3B ∉ (runBatch (BatchState.mk [] [] 0) batch3).files ∧
     rawName batch3B ∉ (runBatch (BatchState.mk [] [] 0) batch3).files) :=
  ⟨(c9_theorem batch3 (by decide) (batch3A, .reply ['\x7b', '\x7d'] 0 1) (by decide)).1
      ⟨['\x7b', '\x7d'], 0, 1, rfl, fun h => nomatch h⟩,
   (c9_theorem batch3 (by decide) (batch3B, .callFail) (by decide)).2 (Or.inr (Or.inl rfl))⟩

/-! ### C10 -/

/-- C10: corpus matching — the selected targets are exactly the `.sol`
candidate files whose identifier (name without the extension) belongs to
the reference set; adding a candidate whose identifier is not referenced
changes nothing; and non-directory entries on either side are ignored. -/
theorem c10_theorem : ∀ (input : List CatEntry) (refs : List Str),
    (matchedTargets input refs =
      (candidateFiles input).filter (fun t => decide (identOf t ∈ refs))) ∧
    (∀ pre post cn files f, idOfName f ∉ refs →
      matchedTargets (pre ++ CatEntry.mk cn true (files ++ [f]) :: post) refs =
        matchedTargets (pre ++ CatEntry.mk cn true files :: post) refs) ∧
    (∀ pre post cn files,
      matchedTargets (pre ++ CatEntry.mk cn false files :: post) refs =
        matchedTargets (pre ++ post) refs) ∧
    (∀ (pre post : List DirEntry) (n : Str),
      refNames (pre ++ DirEntry.mk n false :: post) = refNames (pre ++ post)) := by
  intro input refs
  exact ⟨matchedTargets_eq_filter input refs,
    fun pre post cn files f h => matchedTargets_unrelated pre post cn files f refs h,
    fun pre post cn files => matchedTargets_nondir pre post cn files refs,
    fun pre post n => refNames_nondir pre post n⟩

/-- C10 witness: with reference set `Reentrancy1`, adding the unrelated
candidate `Other.sol` to the `access_control` category leaves the
selection unchanged. -/
theorem c10_witness :
    matchedTargets ([] ++ CatEntry.mk ("access_control".data) true
        (["Reentrancy1.sol".data] ++ ["Other.sol".data]) :: []) ["Reentrancy1".data] =
      matchedTargets ([] ++ CatEntry.mk ("access_control".data) true
        ["Reentrancy1.sol".data] :: []) ["Reentrancy1".data] :=
  (c10_theorem [] ["Reentrancy1".data]).2.1 [] [] ("access_control".data)
    ["Reentrancy1.sol".data] ("Other.sol".data) (by decide)
